import Mathlib

/-! # 4x4 matrix keypad scanner (STM32G071): model and properties

Shallow embedding of `keypress_on_keil.c` and `keypress_to_LCD.c`.

Both programs are one unconditional `goto` loop that busy-polls `GPIOA->IDR`.
The embedding is a step function over the program points at which the input
register is read: each step consumes one raw value of `GPIOA->IDR`, runs the
code up to the next read and returns the events produced on the way (register
writes, delays, stores, display calls).  A run is the fold of that step over a
finite stream of input-register values.

The code before the loop and the delay function are embedded on their own: the
GPIO initialisation of each program as a function on the configuration
registers, `msdelay` as its two nested counting loops.

Registers and C integers are `Nat`; the wrap-around of `uint8_t` and `uint32_t`
arithmetic is written out with `% 256` and `% 2 ^ 32`.
-/

namespace Keypad

/-! ## Data model -/

/-- Which of the two programs is running: `keypress_on_keil.c` stores the key in
two global watch variables, `keypress_to_LCD.c` sends it to the display. -/
inductive Variant
  | keil
  | lcd
  deriving DecidableEq, Repr

/-- `const char keypad_map[4][4]`, identical in both files. -/
def keypad_map : List (List Char) :=
  [['1', '2', '3', 'A'],
   ['4', '5', '6', 'B'],
   ['7', '8', '9', 'C'],
   ['*', '0', '#', 'D']]

/-- The array access `keypad_map[r][c]`; `none` is an access outside the array. -/
def keypad_at (r c : Nat) : Option Char :=
  match keypad_map[r]? with
  | some cells => cells[c]?
  | none => none

/-- Program points at which `GPIOA->IDR` is read. -/
inductive PC
  /-- The `while((GPIOA->IDR & 0x00000F00) != 0)` of step 3a. -/
  | waitRelease
  /-- First read of the `while(1)` of step 3b. -/
  | waitPress
  /-- Second read of step 3c, after `msdelay(10)`. -/
  | debounce
  /-- The read inside the `for` loop of step 3d, column `j` being driven. -/
  | scan
  deriving DecidableEq, Repr

/-- What a run does, in program order. -/
inductive Event
  /-- Write of `w` to `GPIOC->BSRR`. -/
  | bsrrC (w : Nat)
  /-- Read of `GPIOA->IDR & 0x00000F00` giving `rowval`, taken while the column
  outputs were `cols = GPIOC->ODR & 0xF0`. -/
  | sample (cols : Nat) (rowval : Nat)
  /-- Call `msdelay(ms)`. -/
  | delay (ms : Nat)
  /-- Store to `g_last_keycode` (Keil variant). -/
  | keycode (n : Nat)
  /-- The key produced: `keypad_map[row][col]` was read and gave `sym`, which is
  stored in `g_pressed_key` (Keil variant) or in `key_char` (display variant). -/
  | key (row : Nat) (col : Nat) (sym : Char)
  /-- Entry of `LCD_cmd(b)`. -/
  | lcd_cmd (b : Nat)
  /-- Entry of `LCD_disp(b)`. -/
  | lcd_disp (b : Nat)
  /-- Write of `v` to `GPIOB->ODR`. -/
  | odrB (v : Nat)
  /-- Write of `v` to `GPIOA->ODR`. -/
  | odrA (v : Nat)
  deriving DecidableEq, Repr

/-- Local variables of `main`, the watch variables and the output registers. -/
structure State where
  pc : PC
  j : Nat
  rowval : Nat
  row_index : Nat
  col_index : Nat
  key_char : Char
  g_last_keycode : Nat
  g_pressed_key : Char
  odrA : Nat
  odrB : Nat
  odrC : Nat
  deriving DecidableEq, Repr

/-! ## Register layer -/

/-- Effect on the output data register of writing `w` to the bit set/reset
register: bits of the high half of `w` are reset, bits of the low half are set,
and a bit named in both halves is set. -/
def bsrrWrite (odr w : Nat) : Nat :=
  let bs := w &&& 0xFFFF
  let br := (w >>> 16) &&& 0xFFFF
  (odr ^^^ (odr &&& br)) ||| bs

/-- The statement `GPIOC->BSRR = w;`. -/
def writeBSRR (s : State) (w : Nat) : State × List Event :=
  ({ s with odrC := bsrrWrite s.odrC w }, [Event.bsrrC w])

/-- The masked read `GPIOA->IDR & 0x00000F00` of a raw register value. -/
def readRows (idr : Nat) : Nat := idr &&& 0x00000F00

/-- The event of one masked read in state `s`. -/
def sampleEvent (s : State) (idr : Nat) : Event :=
  Event.sample (s.odrC &&& 0xF0) (readRows idr)

/-- Body of `LCD_cmd(comd)`. -/
def LCD_cmd (s : State) (comd : Nat) : State × List Event :=
  let b := (s.odrB &&& 0xFF00) ||| comd
  let a1 := s.odrA &&& 0xFF7F
  let a2 := a1 ||| 0x0020
  let a3 := a2 &&& 0xFFDF
  ({ s with odrB := b, odrA := a3 },
   [Event.lcd_cmd comd, Event.odrB b, Event.odrA a1, Event.odrA a2, Event.delay 1,
    Event.odrA a3, Event.delay 50])

/-- Body of `LCD_disp(char1)`. -/
def LCD_disp (s : State) (char1 : Nat) : State × List Event :=
  let b := (s.odrB &&& 0xFF00) ||| char1
  let a1 := s.odrA ||| 0x0080
  let a2 := a1 ||| 0x0020
  let a3 := a2 &&& 0xFFDF
  ({ s with odrB := b, odrA := a3 },
   [Event.lcd_disp char1, Event.odrB b, Event.odrA a1, Event.odrA a2, Event.delay 1,
    Event.odrA a3, Event.delay 50])

/-! ## The scan loop -/

/-- The `if(j==0) ... else if(j==3) ...` chain of step 3d. -/
def driveColumn (s : State) : State × List Event :=
  if s.j = 0 then writeBSRR s 0x00E00010
  else if s.j = 1 then writeBSRR s 0x00D00020
  else if s.j = 2 then writeBSRR s 0x00B00040
  else if s.j = 3 then writeBSRR s 0x00700080
  else (s, [])

/-- Step 3e, the `if (rowval == 0x0100) ... else if (rowval == 0x0800) ...` chain. -/
def encodeKey (s : State) : State :=
  if s.rowval = 0x0100 then { s with row_index := 0 }
  else if s.rowval = 0x0200 then { s with row_index := 1 }
  else if s.rowval = 0x0400 then { s with row_index := 2 }
  else if s.rowval = 0x0800 then { s with row_index := 3 }
  else s

/-- Step 3f.  Keil variant: the two stores to the watch variables.  Display
variant: the table read into `key_char` and the three display calls.  `none`
when the table is read outside its bounds. -/
def outputKey (v : Variant) (s : State) : Option (State × List Event) :=
  match keypad_at s.row_index s.col_index with
  | none => none
  | some ch =>
    match v with
    | Variant.keil =>
      let code := (s.row_index * 4 + s.col_index) % 256
      some ({ s with g_last_keycode := code, g_pressed_key := ch },
            [Event.keycode code, Event.key s.row_index s.col_index ch])
    | Variant.lcd =>
      let s0 := { s with key_char := ch }
      let r1 := LCD_cmd s0 0xC0
      let r2 := LCD_disp r1.1 ch.toNat
      let r3 := LCD_disp r2.1 32
      some (r3.1, Event.key s.row_index s.col_index ch :: (r1.2 ++ r2.2 ++ r3.2))

/-- The label `jump:` up to the first read of step 3a. -/
def enterJump (s : State) : State × List Event :=
  let r := writeBSRR s 0x000000F0
  ({ r.1 with pc := PC.waitRelease }, r.2)

/-- Steps 3e and 3f followed by `goto jump`. -/
def finishCycle (v : Variant) (s : State) : Option (State × List Event) :=
  match outputKey v (encodeKey s) with
  | none => none
  | some r =>
    let r2 := enterJump r.1
    some (r2.1, r.2 ++ r2.2)

/-- One read of `GPIOA->IDR`, with raw value `idr`, and the code that follows it
up to the next read. -/
def step (v : Variant) (s : State) (idr : Nat) : Option (State × List Event) :=
  let rv := readRows idr
  let ev := sampleEvent s idr
  match s.pc with
  | PC.waitRelease =>
    if rv ≠ 0 then some (s, [ev])
    else some ({ s with pc := PC.waitPress }, [ev, Event.delay 10])
  | PC.waitPress =>
    if rv ≠ 0 then some ({ s with rowval := rv, pc := PC.debounce }, [ev, Event.delay 10])
    else some ({ s with rowval := rv }, [ev])
  | PC.debounce =>
    if rv ≠ 0 then
      let r := driveColumn { s with rowval := rv, j := 0 }
      some ({ r.1 with pc := PC.scan }, ev :: r.2)
    else some ({ s with rowval := rv, pc := PC.waitPress }, [ev])
  | PC.scan =>
    if rv ≠ 0 then
      match finishCycle v { s with rowval := rv, col_index := s.j } with
      | none => none
      | some r => some (r.1, ev :: r.2)
    else
      let j1 := (s.j + 1) % 256
      if j1 < 4 then
        let r := driveColumn { s with rowval := rv, j := j1 }
        some (r.1, ev :: r.2)
      else
        match finishCycle v { s with rowval := rv, j := j1 } with
        | none => none
        | some r => some (r.1, ev :: r.2)

/-- Run the loop over a finite stream of input-register values, collecting the
events. -/
def run (v : Variant) (s : State) : List Nat → Option (State × List Event)
  | [] => some (s, [])
  | idr :: rest =>
    match step v s idr with
    | none => none
    | some r =>
      match run v r.1 rest with
      | none => none
      | some r2 => some (r2.1, r.2 ++ r2.2)

/-- State of `main` when control first reaches `jump:`: `row_index` and
`col_index` are 0, the watch variables hold their initial values, and the
uninitialised locals and the output registers hold arbitrary values. -/
def initState (j rowval : Nat) (key_char : Char) (odrA odrB odrC : Nat) : State :=
  { pc := PC.waitRelease, j := j, rowval := rowval, row_index := 0, col_index := 0,
    key_char := key_char, g_last_keycode := 0xFF, g_pressed_key := Char.ofNat 0,
    odrA := odrA, odrB := odrB, odrC := odrC }

/-- The scan loop from its entry at `jump:` over a stream of input values. -/
def runLoop (v : Variant) (s0 : State) (idrs : List Nat) : Option (State × List Event) :=
  let r := enterJump s0
  match run v r.1 idrs with
  | none => none
  | some r2 => some (r2.1, r.2 ++ r2.2)

/-! ## Observations on traces -/

/-- Key events of a trace. -/
def Event.isKey : Event → Bool
  | Event.key _ _ _ => true
  | _ => false

/-- Column writes of a trace. -/
def Event.isDrive : Event → Bool
  | Event.bsrrC _ => true
  | _ => false

/-- Row reads of a trace. -/
def Event.isSample : Event → Bool
  | Event.sample _ _ => true
  | _ => false

/-- A row read that gave zero while all four column outputs were high. -/
def Event.isReleaseSample : Event → Bool
  | Event.sample cols rowval => cols == 0xF0 && rowval == 0
  | _ => false

/-- The four words written to `GPIOC->BSRR` in step 3d, by column. -/
def columnWords : List Nat := [0x00E00010, 0x00D00020, 0x00B00040, 0x00700080]

/-- Events of `n` columns in a row that read zero, the first being column `j`:
the zero read with only that column high, then the write for the next column. -/
def sweepEvents (j : Nat) : Nat → List Event
  | 0 => []
  | n + 1 =>
    Event.sample (0x10 <<< j) 0 :: Event.bsrrC (columnWords.getD (j + 1) 0) ::
      sweepEvents (j + 1) n

/-- Number of row bits (bits 8..11, PA8..PA11) set in a masked read. -/
def rowBitCount (m : Nat) : Nat :=
  (List.range 4).countP (fun r => m.testBit (8 + r))

/-- Between any two key events of the trace lies a zero row read taken with all
four columns high. -/
def KeysSeparated (tr : List Event) : Prop :=
  ∀ (pre mid post : List Event) (e1 e2 : Event),
    tr = pre ++ e1 :: (mid ++ e2 :: post) → e1.isKey = true → e2.isKey = true →
    ∃ e ∈ mid, e.isReleaseSample = true

/-- Whether a release sample has been seen since the last key event, `b` being
the answer before the trace. -/
def armedAfter (b : Bool) : List Event → Bool
  | [] => b
  | e :: t =>
    if e.isKey then armedAfter false t
    else if e.isReleaseSample then armedAfter true t
    else armedAfter b t

/-- Executable form of `KeysSeparated`: every key event but possibly the first
is met with a release sample seen since the key event before it. -/
def keysSeparatedFrom (b : Bool) : List Event → Bool
  | [] => true
  | e :: t =>
    if e.isKey then b && keysSeparatedFrom false t
    else if e.isReleaseSample then keysSeparatedFrom true t
    else keysSeparatedFrom b t

/-- The loop invariant on the variables: both table indexes are in bounds and,
during the sweep, so is the loop counter. -/
def State.InBounds (s : State) : Prop :=
  s.row_index < 4 ∧ s.col_index < 4 ∧ (s.pc = PC.scan → s.j < 4)

/-- The variables that the sweep of step 3d does not assign. -/
def State.sameOutputs (s t : State) : Prop :=
  t.row_index = s.row_index ∧ t.col_index = s.col_index ∧ t.key_char = s.key_char ∧
  t.g_last_keycode = s.g_last_keycode ∧ t.g_pressed_key = s.g_pressed_key ∧
  t.odrA = s.odrA ∧ t.odrB = s.odrB

/-- What steps 3e, 3f and the jump make of state `s`: the final state `s1`, the
events `evs` and the symbol `ch` read from the table. -/
structure FinishSpec (v : Variant) (s s1 : State) (evs : List Event) (ch : Char) : Prop where
  lookup : keypad_at (encodeKey s).row_index s.col_index = some ch
  keys : evs.filter Event.isKey = [Event.key (encodeKey s).row_index s.col_index ch]
  drives : evs.filter (fun e => e.isDrive || e.isSample) = [Event.bsrrC 0x000000F0]
  pc_eq : s1.pc = PC.waitRelease
  row_eq : s1.row_index = (encodeKey s).row_index
  col_eq : s1.col_index = s.col_index
  rowval_eq : s1.rowval = s.rowval
  j_eq : s1.j = s.j
  odrC_eq : s1.odrC = bsrrWrite s.odrC 0x000000F0
  keil_key : v = Variant.keil → s1.g_pressed_key = ch
  keil_code : v = Variant.keil →
    s1.g_last_keycode = ((encodeKey s).row_index * 4 + s.col_index) % 256
  lcd_key : v = Variant.lcd → s1.key_char = ch
  separated : ∀ b, keysSeparatedFrom b evs = b
  disarmed : ∀ b, armedAfter b evs = false

/-- What a run that starts in wait-for-press can have done: either it is still
waiting (no key event, no column write, outputs untouched), or the stream holds a
first read `a` and its re-read `b`, both non-zero, the loop was waiting up to `a`,
and after `b` it is in the sweep with column 0 driven. -/
def WaitPressOutcome (v : Variant) (s : State) (xs : List Nat) : Prop :=
  (∃ s1 tr, run v s xs = some (s1, tr) ∧ (s1.pc = PC.waitPress ∨ s1.pc = PC.debounce) ∧
      tr.filter Event.isKey = [] ∧ tr.filter Event.isDrive = [] ∧
      s1.odrC = s.odrC ∧ s.sameOutputs s1) ∨
  (∃ pre a b post s0 tr0 s1, xs = pre ++ a :: b :: post ∧
      readRows a ≠ 0 ∧ readRows b ≠ 0 ∧
      run v s pre = some (s0, tr0) ∧ s0.pc = PC.waitPress ∧
      tr0.filter Event.isKey = [] ∧ tr0.filter Event.isDrive = [] ∧
      run v s (pre ++ [a, b]) = some (s1, tr0 ++
        [Event.sample (s.odrC &&& 0xF0) (readRows a), Event.delay 10,
         Event.sample (s.odrC &&& 0xF0) (readRows b), Event.bsrrC 0x00E00010]) ∧
      s1.pc = PC.scan ∧ s1.j = 0)

/-! ## The delay loop -/

/-- Variables of `msdelay` and what the proofs observe of a call: the two loop
counters, the number of `__NOP()` executed, and whether an increment of a
counter ever wrapped around at `2 ^ 32`. -/
structure DelayState where
  i : Nat
  j : Nat
  nops : Nat
  wrapped : Bool
  deriving DecidableEq, Repr

/-- The inner loop `for (j = ...; j < 3180; j++) { __NOP(); }` from its test
onwards; `fuel` bounds the number of tests, and `none` is fuel run out. -/
def innerLoop : Nat → DelayState → Option DelayState
  | 0, _ => none
  | fuel + 1, d =>
    if d.j < 3180 then
      innerLoop fuel
        { d with nops := d.nops + 1, j := (d.j + 1) % 2 ^ 32,
                 wrapped := d.wrapped || decide (2 ^ 32 ≤ d.j + 1) }
    else some d

/-- The outer loop `for (i = ...; i < ms; i++) { ... }` from its test onwards;
`fuel` bounds the number of tests of each loop. -/
def outerLoop (fuel : Nat) (ms : Nat) : Nat → DelayState → Option DelayState
  | 0, _ => none
  | n + 1, d =>
    if d.i < ms then
      match innerLoop fuel { d with j := 0 } with
      | none => none
      | some d1 =>
        outerLoop fuel ms n
          { d1 with i := (d1.i + 1) % 2 ^ 32,
                    wrapped := d1.wrapped || decide (2 ^ 32 ≤ d1.i + 1) }
    else some d

/-- The function `void msdelay(volatile uint32_t ms)`: `i` is set to 0 on entry
to the outer loop, `j` holds an arbitrary value `j0` until the inner loop sets it. -/
def msdelay (fuel : Nat) (ms : Nat) (j0 : Nat) : Option DelayState :=
  outerLoop fuel ms fuel { i := 0, j := j0, nops := 0, wrapped := false }

/-! ## GPIO configuration -/

/-- The clock-enable register and the configuration registers of the three
ports that the initialisation code writes. -/
structure GpioConfig where
  iopenr : Nat
  moderA : Nat
  otyperA : Nat
  pupdrA : Nat
  moderB : Nat
  otyperB : Nat
  pupdrB : Nat
  moderC : Nat
  otyperC : Nat
  pupdrC : Nat
  deriving DecidableEq, Repr

/-- Section "1. GPIO and Clock Initialization" of `main` in `keypress_on_keil.c`. -/
def gpioInit_keil (c0 : GpioConfig) : GpioConfig :=
  let c1 := { c0 with iopenr := c0.iopenr ||| 0x00000005 }
  let c2 := { c1 with moderC := c1.moderC &&& 0xFFFF00FF }
  let c3 := { c2 with moderC := c2.moderC ||| 0x00005500 }
  let c4 := { c3 with otyperC := c3.otyperC &&& 0xFFFFFF0F }
  let c5 := { c4 with pupdrC := c4.pupdrC &&& 0xFFFF00FF }
  let c6 := { c5 with moderA := c5.moderA &&& 0xFF00FFFF }
  let c7 := { c6 with pupdrA := c6.pupdrA &&& 0xFF00FFFF }
  { c7 with pupdrA := c7.pupdrA ||| 0x00AA0000 }

/-- Section "1. GPIO and Clock Initialization" of `main` in `keypress_to_LCD.c`. -/
def gpioInit_lcd (c0 : GpioConfig) : GpioConfig :=
  let c1 := { c0 with iopenr := c0.iopenr ||| 0x00000007 }
  let c2 := { c1 with moderC := c1.moderC &&& 0xFFFF00FF }
  let c3 := { c2 with moderC := c2.moderC ||| 0x00005500 }
  let c4 := { c3 with otyperC := c3.otyperC &&& 0xFFFFFF0F }
  let c5 := { c4 with pupdrC := c4.pupdrC &&& 0xFFFF00FF }
  let c6 := { c5 with moderA := c5.moderA &&& 0xFF0003FF }
  let c7 := { c6 with otyperA := c6.otyperA &&& 0xFFFFF01F }
  let c8 := { c7 with pupdrA := c7.pupdrA &&& 0xFF0003FF }
  let c9 := { c8 with pupdrA := c8.pupdrA ||| 0x00AA0000 }
  let c10 := { c9 with moderA := c9.moderA ||| 0x00005400 }
  let c11 := { c10 with moderB := c10.moderB &&& 0xFFFF0000 }
  let c12 := { c11 with moderB := c11.moderB ||| 0x00005555 }
  let c13 := { c12 with otyperB := c12.otyperB &&& 0xFFFFFF00 }
  { c13 with pupdrB := c13.pupdrB &&& 0xFFFF0000 }

/-- The two-bit field of pin `pin` in a MODER or PUPDR register. -/
def pinField (reg pin : Nat) : Nat := (reg >>> (2 * pin)) &&& 3

/-- The bit of pin `pin` in an OTYPER register. -/
def pinBit (reg pin : Nat) : Nat := (reg >>> pin) &&& 1

/-- An example configuration: every register with all 32 bits high. -/
def GpioConfig.allHigh : GpioConfig :=
  { iopenr := 0xFFFFFFFF, moderA := 0xFFFFFFFF, otyperA := 0xFFFFFFFF, pupdrA := 0xFFFFFFFF,
    moderB := 0xFFFFFFFF, otyperB := 0xFFFFFFFF, pupdrB := 0xFFFFFFFF,
    moderC := 0xFFFFFFFF, otyperC := 0xFFFFFFFF, pupdrC := 0xFFFFFFFF }

/-- Events of step 3f: the stores of the Keil variant, the table read, the
display calls and the register writes they make. -/
def Event.isOutput : Event → Bool
  | Event.keycode _ => true
  | Event.key _ _ _ => true
  | Event.lcd_cmd _ => true
  | Event.lcd_disp _ => true
  | Event.odrA _ => true
  | Event.odrB _ => true
  | _ => false

/-- Calls of the display driver. -/
def Event.isLcdCall : Event → Bool
  | Event.lcd_cmd _ => true
  | Event.lcd_disp _ => true
  | _ => false

/-- The display calls that step 3f of `keypress_to_LCD.c` makes for a key event:
`LCD_cmd(0xC0)`, `LCD_disp(key_char)`, `LCD_disp(' ')`. -/
def keyDisplay : Event → List Event
  | Event.key _ _ sym => [Event.lcd_cmd 0xC0, Event.lcd_disp sym.toNat, Event.lcd_disp 0x20]
  | _ => []

/-- The part of the state that the scan state machine reads and writes outside
step 3f: the program point, the loop counter, the last mask, the two indexes and
the column outputs. -/
def State.control (s : State) : PC × Nat × Nat × Nat × Nat × Nat :=
  (s.pc, s.j, s.rowval, s.row_index, s.col_index, s.odrC)

/-- Events of the scan state machine common to both variants: column writes, row
reads and key results. -/
def Event.isScan (e : Event) : Bool := e.isDrive || e.isSample || e.isKey

/-- What is compared between the two variants after a step or a run: the control
part of the state and the scan events. -/
def scanView (r : State × List Event) : (PC × Nat × Nat × Nat × Nat × Nat) × List Event :=
  (r.1.control, r.2.filter Event.isScan)

/-! ## Register-level lemmas -/

theorem testBit_low16 (i : Nat) : (0xFFFF : Nat).testBit i = decide (i < 16) := by
  have h : (0xFFFF : Nat) = 2 ^ 16 - 1 := by norm_num
  rw [h, Nat.testBit_two_pow_sub_one]

/-- Bitwise reading of a BSRR write: bit `i` ends up set when the low half names
it, reset when only the high half names it, and is unchanged otherwise. -/
theorem testBit_bsrrWrite (odr w i : Nat) :
    (bsrrWrite odr w).testBit i =
      ((odr.testBit i && !(w.testBit (16 + i) && decide (i < 16)))
        || (w.testBit i && decide (i < 16))) := by
  unfold bsrrWrite
  simp only [Nat.testBit_or, Nat.testBit_xor, Nat.testBit_and, Nat.testBit_shiftRight,
    testBit_low16]
  cases odr.testBit i <;> cases w.testBit (16 + i) <;> cases w.testBit i <;>
    cases decide (i < 16) <;> rfl

theorem testBit_release (odr i : Nat) :
    (bsrrWrite odr 0x000000F0).testBit i = (decide (4 ≤ i ∧ i < 8) || odr.testBit i) := by
  rw [testBit_bsrrWrite]
  by_cases h : i < 16
  · generalize odr.testBit i = b
    interval_cases i <;> cases b <;> decide
  · have h2 : ¬ (4 ≤ i ∧ i < 8) := by omega
    simp [h, h2]

theorem columnWords_lt {j w : Nat} (hw : columnWords[j]? = some w) : j < 4 := by
  by_contra hc
  have : columnWords[j]? = none := List.getElem?_eq_none (by simp [columnWords]; omega)
  rw [this] at hw; cases hw

theorem testBit_column (odr j w i : Nat) (hw : columnWords[j]? = some w) :
    (bsrrWrite odr w).testBit i =
      if i = 4 + j then true else if 4 ≤ i ∧ i < 8 then false else odr.testBit i := by
  have hj : j < 4 := columnWords_lt hw
  rw [testBit_bsrrWrite]
  by_cases h : i < 16
  · generalize odr.testBit i = b
    interval_cases j <;> simp [columnWords] at hw <;> subst hw <;>
      interval_cases i <;> cases b <;> decide
  · have h1 : i ≠ 4 + j := by omega
    have h2 : ¬ (4 ≤ i ∧ i < 8) := by omega
    simp [h, h1, h2]

theorem testBit_F0 (i : Nat) : (0xF0 : Nat).testBit i = decide (4 ≤ i ∧ i < 8) := by
  by_cases h : i < 8
  · interval_cases i <;> decide
  · have : (0xF0 : Nat).testBit i = false :=
      Nat.testBit_lt_two_pow (lt_of_lt_of_le (by norm_num : (0xF0 : Nat) < 2 ^ 8)
        (Nat.pow_le_pow_right (by norm_num) (by omega)))
    rw [this]; simp; omega

/-- After the release-all write the four column outputs read `0xF0`. -/
theorem cols_release (odr : Nat) : bsrrWrite odr 0x000000F0 &&& 0xF0 = 0xF0 := by
  apply Nat.eq_of_testBit_eq
  intro i
  rw [Nat.testBit_and, testBit_release, testBit_F0]
  cases decide (4 ≤ i ∧ i < 8) <;> simp

/-- After the write for column `j` only that column output is high. -/
theorem cols_column (odr j w : Nat) (hw : columnWords[j]? = some w) :
    bsrrWrite odr w &&& 0xF0 = 0x10 <<< j := by
  have hj : j < 4 := columnWords_lt hw
  apply Nat.eq_of_testBit_eq
  intro i
  rw [Nat.testBit_and, testBit_column odr j w i hw, testBit_F0]
  by_cases h : i < 8
  · interval_cases j <;> interval_cases i <;> simp <;> decide
  · have h1 : i ≠ 4 + j := by omega
    have h2 : ¬ (4 ≤ i ∧ i < 8) := by omega
    have h3 : (0x10 <<< j).testBit i = false := by
      apply Nat.testBit_lt_two_pow
      calc 0x10 <<< j < 2 ^ 8 := by interval_cases j <;> decide
        _ ≤ 2 ^ i := Nat.pow_le_pow_right (by norm_num) (by omega)
    simp [h1, h2, h3]

/-! ## One step of the loop -/

theorem driveColumn_eq (s : State) (w : Nat) (hw : columnWords[s.j]? = some w) :
    driveColumn s = writeBSRR s w := by
  have hj : s.j < 4 := columnWords_lt hw
  have h : s.j = 0 ∨ s.j = 1 ∨ s.j = 2 ∨ s.j = 3 := by omega
  rcases h with h | h | h | h <;> simp [driveColumn, h, columnWords] at hw ⊢ <;> subst hw <;> rfl

theorem step_waitRelease_held (v : Variant) (s : State) (x : Nat)
    (hpc : s.pc = PC.waitRelease) (hx : readRows x ≠ 0) :
    step v s x = some (s, [sampleEvent s x]) := by
  simp [step, hpc, hx]

theorem step_waitRelease_zero (v : Variant) (s : State) (x : Nat)
    (hpc : s.pc = PC.waitRelease) (hx : readRows x = 0) :
    step v s x = some ({ s with pc := PC.waitPress }, [sampleEvent s x, Event.delay 10]) := by
  simp [step, hpc, hx]

theorem step_waitPress_zero (v : Variant) (s : State) (x : Nat)
    (hpc : s.pc = PC.waitPress) (hx : readRows x = 0) :
    step v s x = some ({ s with rowval := 0 }, [sampleEvent s x]) := by
  simp [step, hpc, hx]

theorem step_waitPress_nonzero (v : Variant) (s : State) (x : Nat)
    (hpc : s.pc = PC.waitPress) (hx : readRows x ≠ 0) :
    step v s x = some ({ s with rowval := readRows x, pc := PC.debounce },
      [sampleEvent s x, Event.delay 10]) := by
  simp [step, hpc, hx]

theorem step_debounce_zero (v : Variant) (s : State) (x : Nat)
    (hpc : s.pc = PC.debounce) (hx : readRows x = 0) :
    step v s x = some ({ s with rowval := 0, pc := PC.waitPress }, [sampleEvent s x]) := by
  simp [step, hpc, hx]

theorem step_debounce_nonzero (v : Variant) (s : State) (x : Nat)
    (hpc : s.pc = PC.debounce) (hx : readRows x ≠ 0) :
    step v s x = some
      ({ s with rowval := readRows x, j := 0, pc := PC.scan, odrC := bsrrWrite s.odrC 0x00E00010 },
       [sampleEvent s x, Event.bsrrC 0x00E00010]) := by
  simp [step, hpc, hx, driveColumn, writeBSRR]

theorem step_scan_next (v : Variant) (s : State) (x w : Nat)
    (hpc : s.pc = PC.scan) (hx : readRows x = 0) (hw : columnWords[s.j + 1]? = some w) :
    step v s x = some ({ s with rowval := 0, j := s.j + 1, odrC := bsrrWrite s.odrC w },
      [sampleEvent s x, Event.bsrrC w]) := by
  have hj : s.j + 1 < 4 := columnWords_lt hw
  have h256 : (s.j + 1) % 256 = s.j + 1 := Nat.mod_eq_of_lt (by omega)
  have hd := driveColumn_eq { s with rowval := 0, j := s.j + 1 } w hw
  rw [hpc] at hd
  simp [step, hpc, hx, h256, hj, hd, writeBSRR]

theorem step_scan_found (v : Variant) (s : State) (x : Nat)
    (hpc : s.pc = PC.scan) (hx : readRows x ≠ 0) :
    step v s x = (finishCycle v { s with rowval := readRows x, col_index := s.j }).map
      (fun r => (r.1, sampleEvent s x :: r.2)) := by
  simp only [step, hpc, hx, ne_eq, not_false_eq_true, if_true]
  split <;> simp_all

theorem step_scan_none (v : Variant) (s : State) (x : Nat)
    (hpc : s.pc = PC.scan) (hj : s.j = 3) (hx : readRows x = 0) :
    step v s x = (finishCycle v { s with rowval := 0, j := 4 }).map
      (fun r => (r.1, sampleEvent s x :: r.2)) := by
  simp only [step, hpc, hx, hj, ne_eq, not_true_eq_false, if_false]
  simp
  split <;> simp_all

theorem keypad_at_isSome {r c : Nat} (hr : r < 4) (hc : c < 4) :
    ∃ ch, keypad_at r c = some ch := by
  interval_cases r <;> interval_cases c <;> exact ⟨_, rfl⟩

theorem encodeKey_row_lt (s : State) (h : s.row_index < 4) : (encodeKey s).row_index < 4 := by
  unfold encodeKey
  split_ifs <;> simp [h]

theorem encodeKey_of_row (s : State) (r : Nat) (hr : r < 4) (h : s.rowval = 0x0100 <<< r) :
    encodeKey s = { s with row_index := r } := by
  interval_cases r <;> simp at h <;> simp [encodeKey, h]

theorem encodeKey_of_not_row (s : State) (h : rowBitCount s.rowval ≠ 1) : encodeKey s = s := by
  have h1 : s.rowval ≠ 0x0100 := by intro e; rw [e] at h; exact h (by decide)
  have h2 : s.rowval ≠ 0x0200 := by intro e; rw [e] at h; exact h (by decide)
  have h3 : s.rowval ≠ 0x0400 := by intro e; rw [e] at h; exact h (by decide)
  have h4 : s.rowval ≠ 0x0800 := by intro e; rw [e] at h; exact h (by decide)
  simp [encodeKey, h1, h2, h3, h4]

theorem encodeKey_frame (s : State) :
    (encodeKey s).col_index = s.col_index ∧ (encodeKey s).pc = s.pc ∧ (encodeKey s).j = s.j ∧
    (encodeKey s).rowval = s.rowval ∧ (encodeKey s).odrC = s.odrC := by
  unfold encodeKey
  split_ifs <;> simp

/-- What steps 3e, 3f and the jump do, given in-bounds indexes after 3e. -/
theorem finishCycle_spec (v : Variant) (s : State)
    (hr : (encodeKey s).row_index < 4) (hc : s.col_index < 4) :
    ∃ s1 evs ch, finishCycle v s = some (s1, evs) ∧ FinishSpec v s s1 evs ch := by
  obtain ⟨ch, hch⟩ := keypad_at_isSome hr hc
  obtain ⟨h1, h2, h3, h4, h5⟩ := encodeKey_frame s
  rw [← h1] at hch
  cases hfin : finishCycle v s with
  | none => cases v <;> simp [finishCycle, outputKey, hch] at hfin
  | some r =>
    obtain ⟨s1, evs⟩ := r
    refine ⟨s1, evs, ch, rfl, ?_⟩
    cases v
    · simp only [finishCycle, outputKey, hch, Option.some.injEq, Prod.mk.injEq] at hfin
      obtain ⟨rfl, rfl⟩ := hfin
      constructor <;>
        simp [enterJump, writeBSRR, Event.isKey, Event.isDrive, Event.isSample,
          keysSeparatedFrom, armedAfter, Event.isReleaseSample, h1, h2, h3, h4, h5, ← hch]
    · simp only [finishCycle, outputKey, hch, Option.some.injEq, Prod.mk.injEq] at hfin
      obtain ⟨rfl, rfl⟩ := hfin
      constructor <;>
        simp [enterJump, writeBSRR, LCD_cmd, LCD_disp, Event.isKey, Event.isDrive,
          Event.isSample, keysSeparatedFrom, armedAfter, Event.isReleaseSample,
          h1, h2, h3, h4, h5, ← hch]

/-! ## Runs -/

theorem run_nil (v : Variant) (s : State) : run v s [] = some (s, []) := rfl

theorem run_cons_of_step (v : Variant) (s s1 : State) (x : Nat) (xs : List Nat)
    (evs : List Event) (h : step v s x = some (s1, evs)) :
    run v s (x :: xs) = (run v s1 xs).map (fun r => (r.1, evs ++ r.2)) := by
  simp only [run, h]
  cases run v s1 xs <;> rfl

theorem run_append_of_run (v : Variant) (s s1 : State) (xs ys : List Nat) (tr : List Event)
    (h : run v s xs = some (s1, tr)) :
    run v s (xs ++ ys) = (run v s1 ys).map (fun r => (r.1, tr ++ r.2)) := by
  induction xs generalizing s tr with
  | nil =>
    simp only [run, Option.some.injEq, Prod.mk.injEq] at h
    obtain ⟨rfl, rfl⟩ := h
    rw [List.nil_append]
    cases hr : run v s ys <;> simp
  | cons x xs ih =>
    cases hs : step v s x with
    | none => simp [run, hs] at h
    | some r =>
      obtain ⟨s2, evs⟩ := r
      rw [run_cons_of_step v s s2 x xs evs hs] at h
      rw [List.cons_append, run_cons_of_step v s s2 x (xs ++ ys) evs hs]
      cases hr : run v s2 xs with
      | none => simp [hr] at h
      | some r2 =>
        obtain ⟨s3, tr2⟩ := r2
        simp only [hr, Option.map_some', Option.some.injEq, Prod.mk.injEq] at h
        obtain ⟨rfl, rfl⟩ := h
        rw [ih s2 tr2 hr]
        cases run v s3 ys <;> simp

/-! ## Key events are separated by a release -/

theorem armedAfter_append (b : Bool) (l1 l2 : List Event) :
    armedAfter b (l1 ++ l2) = armedAfter (armedAfter b l1) l2 := by
  induction l1 generalizing b with
  | nil => rfl
  | cons e t ih =>
    simp only [List.cons_append, armedAfter]
    split_ifs <;> exact ih _

theorem keysSeparatedFrom_append (b : Bool) (l1 l2 : List Event) :
    keysSeparatedFrom b (l1 ++ l2) =
      (keysSeparatedFrom b l1 && keysSeparatedFrom (armedAfter b l1) l2) := by
  induction l1 generalizing b with
  | nil => simp [keysSeparatedFrom, armedAfter]
  | cons e t ih =>
    simp only [List.cons_append, keysSeparatedFrom, armedAfter]
    split_ifs <;> simp [ih, Bool.and_assoc]

theorem release_of_keysSeparatedFrom_false (mid post : List Event) (e2 : Event)
    (h : keysSeparatedFrom false (mid ++ e2 :: post) = true) (h2 : e2.isKey = true) :
    ∃ e ∈ mid, e.isReleaseSample = true := by
  induction mid with
  | nil => simp [keysSeparatedFrom, h2] at h
  | cons m t ih =>
    simp only [List.cons_append, keysSeparatedFrom] at h
    by_cases hk : m.isKey = true
    · simp [hk] at h
    · by_cases hr : m.isReleaseSample = true
      · exact ⟨m, List.mem_cons_self _ _, hr⟩
      · simp only [hk, hr, if_false, Bool.false_eq_true] at h
        obtain ⟨e, he, hre⟩ := ih h
        exact ⟨e, List.mem_cons_of_mem _ he, hre⟩

theorem keysSeparatedFrom_after_key (b : Bool) (pre rest : List Event) (e1 : Event)
    (h : keysSeparatedFrom b (pre ++ e1 :: rest) = true) (h1 : e1.isKey = true) :
    keysSeparatedFrom false rest = true := by
  induction pre generalizing b with
  | nil =>
    simp only [List.nil_append, keysSeparatedFrom, h1, if_true, Bool.and_eq_true] at h
    exact h.2
  | cons p t ih =>
    simp only [List.cons_append, keysSeparatedFrom] at h
    split_ifs at h
    · simp only [Bool.and_eq_true] at h
      exact ih _ h.2
    · exact ih _ h
    · exact ih _ h

/-- The executable check implies the separation property. -/
theorem keysSeparated_of_check (b : Bool) (tr : List Event)
    (h : keysSeparatedFrom b tr = true) : KeysSeparated tr := by
  intro pre mid post e1 e2 htr h1 h2
  subst htr
  exact release_of_keysSeparatedFrom_false mid post e2
    (keysSeparatedFrom_after_key b pre _ e1 h h1) h2

theorem sample_not_key (s : State) (x : Nat) : (sampleEvent s x).isKey = false := rfl

theorem sample_release_of_cols (s : State) (x : Nat) (hc : s.odrC &&& 0xF0 = 0xF0)
    (hx : readRows x = 0) : (sampleEvent s x).isReleaseSample = true := by
  simp [sampleEvent, Event.isReleaseSample, hc, hx]

theorem keysSeparatedFrom_of_no_key (b : Bool) (evs : List Event)
    (h : ∀ e ∈ evs, e.isKey = false) : keysSeparatedFrom b evs = true := by
  induction evs generalizing b with
  | nil => rfl
  | cons e t ih =>
    have he : e.isKey = false := h e (List.mem_cons_self _ _)
    have ht : ∀ e ∈ t, e.isKey = false := fun e1 h1 => h e1 (List.mem_cons_of_mem _ h1)
    simp only [keysSeparatedFrom, he, Bool.false_eq_true, if_false]
    split_ifs <;> exact ih _ ht

theorem armedAfter_true_of_no_key (evs : List Event)
    (h : ∀ e ∈ evs, e.isKey = false) : armedAfter true evs = true := by
  induction evs with
  | nil => rfl
  | cons e t ih =>
    have he : e.isKey = false := h e (List.mem_cons_self _ _)
    have ht : ∀ e ∈ t, e.isKey = false := fun e1 h1 => h e1 (List.mem_cons_of_mem _ h1)
    simp only [armedAfter, he, Bool.false_eq_true, if_false]
    split_ifs <;> exact ih ht

theorem armedAfter_release_cons (b : Bool) (e : Event) (t : List Event)
    (hk : e.isKey = false) (hr : e.isReleaseSample = true)
    (h : ∀ e ∈ t, e.isKey = false) : armedAfter b (e :: t) = true := by
  simp only [armedAfter, hk, hr, Bool.false_eq_true, if_false, if_true]
  exact armedAfter_true_of_no_key t h

/-- One step from a state that satisfies the loop invariant: the step is defined,
re-establishes the invariant, and keeps the separation bookkeeping. -/
theorem step_invariant (v : Variant) (s : State) (x : Nat) (hb : s.InBounds)
    (hcols : s.pc ≠ PC.scan → s.odrC &&& 0xF0 = 0xF0) :
    ∃ s1 evs, step v s x = some (s1, evs) ∧ s1.InBounds ∧
      (s1.pc ≠ PC.scan → s1.odrC &&& 0xF0 = 0xF0) ∧
      ∀ b : Bool, (s.pc ≠ PC.waitRelease → b = true) →
        keysSeparatedFrom b evs = true ∧ (s1.pc ≠ PC.waitRelease → armedAfter b evs = true) := by
  obtain ⟨hrow, hcol, hj⟩ := hb
  have nokey1 : ∀ e ∈ [sampleEvent s x], e.isKey = false := by
    intro e he; simp only [List.mem_singleton] at he; subst he; rfl
  have nokey2 : ∀ e ∈ [sampleEvent s x, Event.delay 10], e.isKey = false := by
    intro e he
    simp only [List.mem_cons, List.mem_singleton, List.not_mem_nil, or_false] at he
    rcases he with rfl | rfl <;> rfl
  have nokey3 : ∀ w, ∀ e ∈ [sampleEvent s x, Event.bsrrC w], e.isKey = false := by
    intro w e he
    simp only [List.mem_cons, List.mem_singleton, List.not_mem_nil, or_false] at he
    rcases he with rfl | rfl <;> rfl
  cases hpc : s.pc with
  | waitRelease =>
    have hc := hcols (by simp [hpc])
    by_cases hx : readRows x = 0
    · refine ⟨_, _, step_waitRelease_zero v s x hpc hx, ⟨hrow, hcol, by simp⟩, fun _ => hc, ?_⟩
      intro b _
      refine ⟨keysSeparatedFrom_of_no_key _ _ nokey2, fun _ => ?_⟩
      exact armedAfter_release_cons b _ _ rfl (sample_release_of_cols s x hc hx)
        (by intro e he; simp only [List.mem_singleton] at he; subst he; rfl)
    · refine ⟨_, _, step_waitRelease_held v s x hpc hx, ⟨hrow, hcol, hj⟩, hcols, ?_⟩
      intro b _
      exact ⟨keysSeparatedFrom_of_no_key _ _ nokey1, fun h => absurd hpc h⟩
  | waitPress =>
    have hc := hcols (by simp [hpc])
    by_cases hx : readRows x = 0
    · refine ⟨_, _, step_waitPress_zero v s x hpc hx, ⟨hrow, hcol, hj⟩, fun _ => hc, ?_⟩
      intro b hbt
      have := hbt (by simp); subst this
      exact ⟨keysSeparatedFrom_of_no_key _ _ nokey1, fun _ => armedAfter_true_of_no_key _ nokey1⟩
    · refine ⟨_, _, step_waitPress_nonzero v s x hpc hx, ⟨hrow, hcol, by simp⟩,
        fun _ => hc, ?_⟩
      intro b hbt
      have := hbt (by simp); subst this
      exact ⟨keysSeparatedFrom_of_no_key _ _ nokey2, fun _ => armedAfter_true_of_no_key _ nokey2⟩
  | debounce =>
    have hc := hcols (by simp [hpc])
    by_cases hx : readRows x = 0
    · refine ⟨_, _, step_debounce_zero v s x hpc hx, ⟨hrow, hcol, by simp⟩, fun _ => hc, ?_⟩
      intro b hbt
      have := hbt (by simp); subst this
      exact ⟨keysSeparatedFrom_of_no_key _ _ nokey1, fun _ => armedAfter_true_of_no_key _ nokey1⟩
    · refine ⟨_, _, step_debounce_nonzero v s x hpc hx, ⟨hrow, hcol, by simp⟩, by simp, ?_⟩
      intro b hbt
      have := hbt (by simp); subst this
      exact ⟨keysSeparatedFrom_of_no_key _ _ (nokey3 _),
        fun _ => armedAfter_true_of_no_key _ (nokey3 _)⟩
  | scan =>
    have hj4 : s.j < 4 := hj hpc
    by_cases hx : readRows x = 0
    · by_cases hlast : s.j = 3
      · obtain ⟨s1, evs, ch, hf, hfs⟩ :=
          finishCycle_spec v { s with rowval := 0, j := 4 }
            (encodeKey_row_lt _ hrow) hcol
        refine ⟨s1, sampleEvent s x :: evs, ?_, ⟨?_, ?_, ?_⟩, ?_, ?_⟩
        · rw [step_scan_none v s x hpc hlast hx, hf]; rfl
        · rw [hfs.row_eq]; exact encodeKey_row_lt _ hrow
        · rw [hfs.col_eq]; exact hcol
        · intro h; rw [hfs.pc_eq] at h; cases h
        · intro _; rw [hfs.odrC_eq]; exact cols_release _
        · intro b hbt
          have := hbt (by simp); subst this
          refine ⟨?_, fun h => absurd hfs.pc_eq h⟩
          simp only [keysSeparatedFrom, sample_not_key, Bool.false_eq_true, if_false,
            hfs.separated]
          split_ifs <;> rfl
      · have hlt : s.j + 1 < 4 := by omega
        have hw : ∃ w, columnWords[s.j + 1]? = some w := by
          have : s.j = 0 ∨ s.j = 1 ∨ s.j = 2 := by omega
          rcases this with h | h | h <;> rw [h] <;> exact ⟨_, rfl⟩
        obtain ⟨w, hw⟩ := hw
        refine ⟨_, _, step_scan_next v s x w hpc hx hw, ⟨hrow, hcol, fun _ => hlt⟩, ?_, ?_⟩
        · intro h; exact absurd hpc h
        · intro b hbt
          have := hbt (by simp); subst this
          exact ⟨keysSeparatedFrom_of_no_key _ _ (nokey3 _),
            fun _ => armedAfter_true_of_no_key _ (nokey3 _)⟩
    · obtain ⟨s1, evs, ch, hf, hfs⟩ :=
        finishCycle_spec v { s with rowval := readRows x, col_index := s.j }
          (encodeKey_row_lt _ hrow) hj4
      refine ⟨s1, sampleEvent s x :: evs, ?_, ⟨?_, ?_, ?_⟩, ?_, ?_⟩
      · rw [step_scan_found v s x hpc hx, hf]; rfl
      · rw [hfs.row_eq]; exact encodeKey_row_lt _ hrow
      · rw [hfs.col_eq]; exact hj4
      · intro h; rw [hfs.pc_eq] at h; cases h
      · intro _; rw [hfs.odrC_eq]; exact cols_release _
      · intro b hbt
        have := hbt (by simp); subst this
        refine ⟨?_, fun h => absurd hfs.pc_eq h⟩
        simp only [keysSeparatedFrom, sample_not_key, Bool.false_eq_true, if_false,
          hfs.separated]
        split_ifs <;> rfl

/-- Any run from a state that satisfies the loop invariant is defined and keeps it. -/
theorem run_invariant (v : Variant) (s : State) (xs : List Nat) (hb : s.InBounds)
    (hcols : s.pc ≠ PC.scan → s.odrC &&& 0xF0 = 0xF0) :
    ∃ s1 tr, run v s xs = some (s1, tr) ∧ s1.InBounds ∧
      (s1.pc ≠ PC.scan → s1.odrC &&& 0xF0 = 0xF0) ∧
      ∀ b : Bool, (s.pc ≠ PC.waitRelease → b = true) →
        keysSeparatedFrom b tr = true ∧ (s1.pc ≠ PC.waitRelease → armedAfter b tr = true) := by
  induction xs generalizing s with
  | nil =>
    refine ⟨s, [], rfl, hb, hcols, ?_⟩
    intro b hbt
    exact ⟨rfl, hbt⟩
  | cons x xs ih =>
    obtain ⟨s1, evs, hs, hb1, hc1, hk1⟩ := step_invariant v s x hb hcols
    obtain ⟨s2, tr, hr, hb2, hc2, hk2⟩ := ih s1 hb1 hc1
    refine ⟨s2, evs ++ tr, ?_, hb2, hc2, ?_⟩
    · rw [run_cons_of_step v s s1 x xs evs hs, hr]; rfl
    · intro b hbt
      obtain ⟨h1, h2⟩ := hk1 b hbt
      obtain ⟨h3, h4⟩ := hk2 (armedAfter b evs) h2
      rw [keysSeparatedFrom_append, armedAfter_append, h1, h3]
      exact ⟨rfl, h4⟩

/-! ## The column sweep -/

/-- Columns that read zero: the sweep moves on, one column per read. -/
theorem sweep_zeros (v : Variant) (s : State) (zs : List Nat) (hpc : s.pc = PC.scan)
    (hj : s.j + zs.length < 4) (hcols : s.odrC &&& 0xF0 = 0x10 <<< s.j)
    (hz : ∀ z ∈ zs, readRows z = 0) :
    ∃ s1, run v s zs = some (s1, sweepEvents s.j zs.length) ∧ s1.pc = PC.scan ∧
      s1.j = s.j + zs.length ∧ s1.odrC &&& 0xF0 = 0x10 <<< s1.j ∧ s.sameOutputs s1 := by
  induction zs generalizing s with
  | nil => exact ⟨s, rfl, hpc, rfl, hcols, rfl, rfl, rfl, rfl, rfl, rfl, rfl⟩
  | cons z zs ih =>
    have hz0 : readRows z = 0 := hz z (List.mem_cons_self _ _)
    have hzs : ∀ z ∈ zs, readRows z = 0 := fun y hy => hz y (List.mem_cons_of_mem _ hy)
    simp only [List.length_cons] at hj
    have hw : ∃ w, columnWords[s.j + 1]? = some w := by
      have : s.j = 0 ∨ s.j = 1 ∨ s.j = 2 := by omega
      rcases this with h | h | h <;> rw [h] <;> exact ⟨_, rfl⟩
    obtain ⟨w, hw⟩ := hw
    have hstep := step_scan_next v s z w hpc hz0 hw
    obtain ⟨s1, hrun, hp1, hj1, hc1, hsame⟩ :=
      ih { s with rowval := 0, j := s.j + 1, odrC := bsrrWrite s.odrC w } hpc
        (by simp only; omega) (cols_column s.odrC (s.j + 1) w hw) hzs
    refine ⟨s1, ?_, hp1, ?_, hc1, hsame⟩
    · rw [run_cons_of_step v s _ z zs _ hstep, hrun]
      simp [sweepEvents, sampleEvent, hcols, hz0, hw]
    · rw [hj1]; simp only [List.length_cons]; omega

theorem encodeKey_row_congr (s t : State) (h1 : t.rowval = s.rowval)
    (h2 : t.row_index = s.row_index) : (encodeKey t).row_index = (encodeKey s).row_index := by
  unfold encodeKey
  rw [h1]
  split_ifs <;> simp [h2]

/-- A sweep that finds a column: from the second debounce read `b` through the
columns `zs` that read zero to the first non-zero read `x`.  `t` is the state
in which step 3e starts. -/
theorem cycle_found (v : Variant) (s : State) (b x : Nat) (zs : List Nat)
    (hpc : s.pc = PC.debounce) (hb : readRows b ≠ 0) (hlen : zs.length < 4)
    (hz : ∀ z ∈ zs, readRows z = 0) (hx : readRows x ≠ 0)
    (hrow : (encodeKey { s with rowval := readRows x }).row_index < 4) :
    ∃ t s1 out ch,
      run v s (b :: (zs ++ [x])) = some (s1, sampleEvent s b :: Event.bsrrC 0x00E00010 ::
        (sweepEvents 0 zs.length ++ Event.sample (0x10 <<< zs.length) (readRows x) :: out)) ∧
      FinishSpec v t s1 out ch ∧ t.rowval = readRows x ∧ t.col_index = zs.length ∧
      t.j = zs.length ∧ t.row_index = s.row_index ∧
      (encodeKey t).row_index = (encodeKey { s with rowval := readRows x }).row_index := by
  have h1 := step_debounce_nonzero v s b hpc hb
  obtain ⟨sC, hrunC, hpC, hjC, hcC, hsame⟩ :=
    sweep_zeros v
      { s with rowval := readRows b, j := 0, pc := PC.scan, odrC := bsrrWrite s.odrC 0x00E00010 }
      zs rfl (by simpa using hlen)
      (cols_column s.odrC 0 _ rfl) hz
  simp only [Nat.zero_add] at hjC hrunC
  obtain ⟨hs1, hs2, -⟩ := hsame
  simp only at hs1 hs2
  have hcong : (encodeKey { sC with rowval := readRows x, col_index := sC.j }).row_index =
      (encodeKey { s with rowval := readRows x }).row_index :=
    encodeKey_row_congr _ _ rfl hs1
  obtain ⟨s1, out, ch, hf, hfs⟩ :=
    finishCycle_spec v { sC with rowval := readRows x, col_index := sC.j }
      (by rw [hcong]; exact hrow) (by simpa [hjC] using hlen)
  have h3 : step v sC x = some (s1, sampleEvent sC x :: out) := by
    rw [step_scan_found v sC x hpC hx, hf]; rfl
  have hev : sampleEvent sC x = Event.sample (0x10 <<< zs.length) (readRows x) := by
    simp [sampleEvent, hcC, hjC]
  refine ⟨_, s1, out, ch, ?_, hfs, rfl, hjC, hjC, hs1, hcong⟩
  rw [run_cons_of_step v s _ b _ _ h1, run_append_of_run v _ sC zs [x] _ hrunC,
    run_cons_of_step v sC s1 x [] _ h3, run_nil, hev]
  simp

/-- A sweep in which all four columns read zero.  `t` is the state in which
step 3e starts. -/
theorem cycle_none (v : Variant) (s : State) (b z0 z1 z2 z3 : Nat)
    (hpc : s.pc = PC.debounce) (hb : readRows b ≠ 0)
    (h0 : readRows z0 = 0) (h1 : readRows z1 = 0) (h2 : readRows z2 = 0)
    (h3 : readRows z3 = 0) (hrow : s.row_index < 4) (hcol : s.col_index < 4) :
    ∃ t s1 out ch,
      run v s [b, z0, z1, z2, z3] = some (s1, sampleEvent s b :: Event.bsrrC 0x00E00010 ::
        (sweepEvents 0 3 ++ Event.sample (0x10 <<< 3) 0 :: out)) ∧
      FinishSpec v t s1 out ch ∧ t.rowval = 0 ∧ t.col_index = s.col_index ∧
      t.row_index = s.row_index ∧ encodeKey t = t := by
  have hd := step_debounce_nonzero v s b hpc hb
  obtain ⟨sC, hrunC, hpC, hjC, hcC, hsame⟩ :=
    sweep_zeros v
      { s with rowval := readRows b, j := 0, pc := PC.scan, odrC := bsrrWrite s.odrC 0x00E00010 }
      [z0, z1, z2] rfl (by simp)
      (cols_column s.odrC 0 _ rfl)
      (by intro z hz
          simp only [List.mem_cons, List.mem_singleton, List.not_mem_nil, or_false] at hz
          rcases hz with rfl | rfl | rfl <;> assumption)
  simp only [Nat.zero_add, List.length_cons, List.length_nil] at hjC hrunC
  obtain ⟨hs1, hs2, -⟩ := hsame
  simp only at hs1 hs2
  have henc : encodeKey { sC with rowval := 0, j := 4 } = { sC with rowval := 0, j := 4 } :=
    encodeKey_of_not_row _ (by show rowBitCount 0 ≠ 1; decide)
  obtain ⟨s1, out, ch, hf, hfs⟩ :=
    finishCycle_spec v { sC with rowval := 0, j := 4 }
      (by rw [henc]; simpa [hs1] using hrow) (by simpa [hs2] using hcol)
  have hlast : step v sC z3 = some (s1, sampleEvent sC z3 :: out) := by
    rw [step_scan_none v sC z3 hpC hjC h3, hf]; rfl
  have hev : sampleEvent sC z3 = Event.sample (0x10 <<< 3) 0 := by
    simp [sampleEvent, hcC, hjC, h3]
  refine ⟨_, s1, out, ch, ?_, hfs, rfl, hs2, hs1, henc⟩
  have happ : [b, z0, z1, z2, z3] = b :: ([z0, z1, z2] ++ [z3]) := rfl
  rw [happ, run_cons_of_step v s _ b _ _ hd, run_append_of_run v _ sC [z0, z1, z2] [z3] _ hrunC,
    run_cons_of_step v sC s1 z3 [] _ hlast, run_nil, hev]
  simp

theorem sweepEvents_no_key (j n : Nat) : (sweepEvents j n).filter Event.isKey = [] := by
  induction n generalizing j with
  | zero => rfl
  | succ n ih => simp [sweepEvents, Event.isKey, ih]

theorem sweepEvents_all_io (j n : Nat) :
    (sweepEvents j n).filter (fun e => e.isDrive || e.isSample) = sweepEvents j n := by
  induction n generalizing j with
  | zero => rfl
  | succ n ih =>
    rw [sweepEvents, List.filter_cons_of_pos (by rfl), List.filter_cons_of_pos (by rfl), ih]

/-- A confirmed press whose sweep ends on a read with exactly row bit `r` set. -/
theorem press_found (v : Variant) (s : State) (r a b x : Nat) (zs : List Nat)
    (hr : r < 4) (hpc : s.pc = PC.waitPress) (ha : readRows a ≠ 0) (hb : readRows b ≠ 0)
    (hlen : zs.length < 4) (hz : ∀ z ∈ zs, readRows z = 0)
    (hx : readRows x = 0x0100 <<< r) :
    ∃ s1 tr ch, run v s (a :: b :: (zs ++ [x])) = some (s1, tr) ∧
      keypad_at r zs.length = some ch ∧
      tr.filter Event.isKey = [Event.key r zs.length ch] ∧
      s1.row_index = r ∧ s1.col_index = zs.length ∧ s1.pc = PC.waitRelease ∧
      (v = Variant.keil → s1.g_pressed_key = ch ∧ s1.g_last_keycode = 4 * r + zs.length) ∧
      (v = Variant.lcd → s1.key_char = ch) := by
  have hxne : readRows x ≠ 0 := by
    rw [hx]; interval_cases r <;> decide
  have h1 := step_waitPress_nonzero v s a hpc ha
  have henc : ∀ u : State, u.rowval = readRows x → (encodeKey u).row_index = r := by
    intro u hu
    rw [encodeKey_of_row u r hr (by rw [hu, hx])]
  obtain ⟨t, s1, out, ch, hrun, hfs, ht1, ht2, ht3, ht4, ht5⟩ :=
    cycle_found v { s with rowval := readRows a, pc := PC.debounce } b x zs rfl hb hlen hz hxne
      (by rw [henc _ rfl]; exact hr)
  have hrow : (encodeKey t).row_index = r := henc t ht1
  rw [run_cons_of_step v s _ a _ _ h1, hrun]
  refine ⟨s1, _, ch, rfl, ?_, ?_, ?_, ?_, hfs.pc_eq, ?_, ?_⟩
  · rw [← hrow, ← ht2]; exact hfs.lookup
  · simp [sampleEvent, Event.isKey, sweepEvents_no_key, hfs.keys, hrow, ht2]
  · rw [hfs.row_eq, hrow]
  · rw [hfs.col_eq, ht2]
  · intro hv
    refine ⟨hfs.keil_key hv, ?_⟩
    rw [hfs.keil_code hv, hrow, ht2]
    omega
  · exact hfs.lcd_key

/-- Claim C1. After a confirmed press (two non-zero reads `a`, `b` in wait-for-press),
if the columns before column `c` read zero and column `c` reads exactly row bit
`r` (`GPIOA->IDR & 0x0F00 == 0x0100 << r`), the key produced by the cycle is the
entry `(r, c)` of the fixed table, whatever the state `s` left by earlier cycles:
it is the one key event of the cycle and the value stored in `g_pressed_key`
(Keil variant) or `key_char` (display variant). -/
theorem C1_key_is_table_entry (v : Variant) (s : State) (r c a b x : Nat) (zs : List Nat)
    (hr : r < 4) (hc : c < 4) (hpc : s.pc = PC.waitPress)
    (ha : readRows a ≠ 0) (hb : readRows b ≠ 0)
    (hlen : zs.length = c) (hz : ∀ z ∈ zs, readRows z = 0)
    (hx : readRows x = 0x0100 <<< r) :
    ∃ s1 tr ch, run v s (a :: b :: (zs ++ [x])) = some (s1, tr) ∧
      [['1', '2', '3', 'A'], ['4', '5', '6', 'B'], ['7', '8', '9', 'C'],
        ['*', '0', '#', 'D']][r]?.bind (fun cells => cells[c]?) = some ch ∧
      keypad_at r c = some ch ∧
      tr.filter Event.isKey = [Event.key r c ch] ∧
      s1.row_index = r ∧ s1.col_index = c ∧ s1.pc = PC.waitRelease ∧
      (v = Variant.keil → s1.g_pressed_key = ch) ∧
      (v = Variant.lcd → s1.key_char = ch) := by
  subst hlen
  obtain ⟨s1, tr, ch, hrun, hlook, hkeys, hrow, hcol, hpc1, hkeil, hlcd⟩ :=
    press_found v s r a b x zs hr hpc ha hb hc hz hx
  refine ⟨s1, tr, ch, hrun, ?_, hlook, hkeys, hrow, hcol, hpc1, fun hv => (hkeil hv).1, hlcd⟩
  rw [← hlook]
  generalize zs.length = c at hc
  interval_cases r <;> interval_cases c <;> rfl

/-- Instance of C1: row 2, column 1, entered from a state left by an earlier cycle. -/
theorem C1_key_is_table_entry_witness :
    ∃ s1 tr ch,
      run Variant.lcd { initState 0 0 'x' 0 0 0 with pc := PC.waitPress, row_index := 3 }
        (0x0400 :: 0x0400 :: ([0] ++ [0x0400])) = some (s1, tr) ∧
      [['1', '2', '3', 'A'], ['4', '5', '6', 'B'], ['7', '8', '9', 'C'],
        ['*', '0', '#', 'D']][2]?.bind (fun cells => cells[1]?) = some ch ∧
      keypad_at 2 1 = some ch ∧
      tr.filter Event.isKey = [Event.key 2 1 ch] ∧
      s1.row_index = 2 ∧ s1.col_index = 1 ∧ s1.pc = PC.waitRelease ∧
      (Variant.lcd = Variant.keil → s1.g_pressed_key = ch) ∧
      (Variant.lcd = Variant.lcd → s1.key_char = ch) :=
  C1_key_is_table_entry Variant.lcd
    { initState 0 0 'x' 0 0 0 with pc := PC.waitPress, row_index := 3 } 2 1 0x0400 0x0400 0x0400
    [0] (by decide) (by decide) rfl (by decide) (by decide) rfl (by decide) (by decide)

/-- Claim C4. A press confirmed on both debounce reads, followed by a sweep in which
columns 0 and 1 read zero and column 2 reads the mask `0x0200` (row bit 1 only),
produces the key event with position (1, 2) and symbol `'6'`; in the Keil variant
`g_last_keycode = 6` and `g_pressed_key = '6'`. -/
theorem C4_row1_col2_is_six (v : Variant) (s : State) (a b z0 z1 x : Nat)
    (hpc : s.pc = PC.waitPress) (ha : readRows a ≠ 0) (hb : readRows b ≠ 0)
    (h0 : readRows z0 = 0) (h1 : readRows z1 = 0) (hx : readRows x = 0x0200) :
    ∃ s1 tr, run v s [a, b, z0, z1, x] = some (s1, tr) ∧
      tr.filter Event.isKey = [Event.key 1 2 '6'] ∧
      s1.row_index = 1 ∧ s1.col_index = 2 ∧
      (v = Variant.keil → s1.g_last_keycode = 6 ∧ s1.g_pressed_key = '6') ∧
      (v = Variant.lcd → s1.key_char = '6') := by
  obtain ⟨s1, tr, ch, hrun, hlook, hkeys, hrow, hcol, -, hkeil, hlcd⟩ :=
    press_found v s 1 a b x [z0, z1] (by decide) hpc ha hb (by simp)
      (by intro z hz
          simp only [List.mem_cons, List.mem_singleton, List.not_mem_nil, or_false] at hz
          rcases hz with rfl | rfl <;> assumption)
      (by rw [hx]; rfl)
  have hch : ch = '6' := by
    have : keypad_at 1 2 = some '6' := rfl
    simp only [List.length_cons, List.length_nil] at hlook
    rw [this] at hlook
    exact (Option.some.inj hlook).symm
  subst hch
  refine ⟨s1, tr, hrun, hkeys, hrow, hcol, ?_, hlcd⟩
  intro hv
  exact ⟨(hkeil hv).2, (hkeil hv).1⟩

/-- Instance of C4 in the Keil variant, from the state at loop entry. -/
theorem C4_row1_col2_is_six_witness :
    ∃ s1 tr,
      run Variant.keil { initState 0 0 'x' 0 0 0 with pc := PC.waitPress }
        [0x0100, 0x0200, 0, 0x1000, 0x0200] = some (s1, tr) ∧
      tr.filter Event.isKey = [Event.key 1 2 '6'] ∧
      s1.row_index = 1 ∧ s1.col_index = 2 ∧
      (Variant.keil = Variant.keil → s1.g_last_keycode = 6 ∧ s1.g_pressed_key = '6') ∧
      (Variant.keil = Variant.lcd → s1.key_char = '6') :=
  C4_row1_col2_is_six Variant.keil { initState 0 0 'x' 0 0 0 with pc := PC.waitPress }
    0x0100 0x0200 0 0x1000 0x0200 rfl (by decide) (by decide) (by decide) (by decide)
    (by decide)

/-- Claim C8. For every column `j` in 0..3 and every prior value of the GPIOC output
register, the word that step 3d writes to BSRR for column `j` (`0x00E00010`,
`0x00D00020`, `0x00B00040`, `0x00700080`) leaves output bit `4 + j` high, the
other three of bits 4..7 low and every bit outside 4..7 unchanged; the set half
and the reset half of the word share no bit. -/
theorem C8_column_word (s : State) (j : Nat) (hj : j < 4) (hs : s.j = j) :
    ∃ w, [0x00E00010, 0x00D00020, 0x00B00040, 0x00700080][j]? = some w ∧
      driveColumn s = ({ s with odrC := bsrrWrite s.odrC w }, [Event.bsrrC w]) ∧
      (∀ i, (driveColumn s).1.odrC.testBit i =
        if i = 4 + j then true else if 4 ≤ i ∧ i < 8 then false else s.odrC.testBit i) ∧
      (w &&& 0xFFFF) &&& ((w >>> 16) &&& 0xFFFF) = 0 := by
  have hw : ∃ w, columnWords[j]? = some w := by
    interval_cases j <;> exact ⟨_, rfl⟩
  obtain ⟨w, hw⟩ := hw
  have hd : driveColumn s = writeBSRR s w := driveColumn_eq s w (by rw [hs]; exact hw)
  refine ⟨w, hw, hd, ?_, ?_⟩
  · intro i
    rw [hd]
    exact testBit_column s.odrC j w i hw
  · interval_cases j <;> simp [columnWords] at hw <;> subst hw <;> decide

/-- Instance of C8: column 2 from an output register with all sixteen bits high. -/
theorem C8_column_word_witness :
    ∃ w, [0x00E00010, 0x00D00020, 0x00B00040, 0x00700080][2]? = some w ∧
      driveColumn { initState 2 0 'x' 0 0 0xFFFF with pc := PC.scan } =
        ({ { initState 2 0 'x' 0 0 0xFFFF with pc := PC.scan } with
            odrC := bsrrWrite { initState 2 0 'x' 0 0 0xFFFF with pc := PC.scan }.odrC w },
          [Event.bsrrC w]) ∧
      (∀ i, (driveColumn { initState 2 0 'x' 0 0 0xFFFF with pc := PC.scan }).1.odrC.testBit i =
        if i = 4 + 2 then true else if 4 ≤ i ∧ i < 8 then false
          else { initState 2 0 'x' 0 0 0xFFFF with pc := PC.scan }.odrC.testBit i) ∧
      (w &&& 0xFFFF) &&& ((w >>> 16) &&& 0xFFFF) = 0 :=
  C8_column_word { initState 2 0 'x' 0 0 0xFFFF with pc := PC.scan } 2 (by decide) rfl

theorem bsrrWrite_release_idem (odr : Nat) :
    bsrrWrite (bsrrWrite odr 0x000000F0) 0x000000F0 = bsrrWrite odr 0x000000F0 := by
  apply Nat.eq_of_testBit_eq
  intro i
  rw [testBit_release, testBit_release]
  cases decide (4 ≤ i ∧ i < 8) <;> simp

/-- Claim C9. For every prior value of the GPIOC output register, the release-all
write `BSRR = 0x000000F0` at `jump:` leaves output bits 4..7 all high and every
other output bit unchanged; writing it a second time changes nothing, so any row
read that is a function of the column outputs and the key state gives the same
mask after each repetition. -/
theorem C9_release_all_idempotent (s : State) (K : Type) (read : Nat → K → Nat) (k : K) :
    (enterJump s).2 = [Event.bsrrC 0x000000F0] ∧
    (enterJump s).1.odrC = bsrrWrite s.odrC 0x000000F0 ∧
    (∀ i, (enterJump s).1.odrC.testBit i = (decide (4 ≤ i ∧ i < 8) || s.odrC.testBit i)) ∧
    enterJump (enterJump s).1 = enterJump s ∧
    read (enterJump (enterJump s).1).1.odrC k = read (enterJump s).1.odrC k := by
  have hidem : enterJump (enterJump s).1 = enterJump s := by
    simp [enterJump, writeBSRR, bsrrWrite_release_idem]
  refine ⟨rfl, rfl, ?_, hidem, by rw [hidem]⟩
  intro i
  exact testBit_release s.odrC i

/-! ## Waiting -/

theorem State.sameOutputs_refl (s : State) : s.sameOutputs s :=
  ⟨rfl, rfl, rfl, rfl, rfl, rfl, rfl⟩

/-- Non-zero reads in wait-for-release leave the state as it is. -/
theorem run_waitRelease_held (v : Variant) (s : State) (held : List Nat)
    (hpc : s.pc = PC.waitRelease) (hh : ∀ x ∈ held, readRows x ≠ 0) :
    run v s held = some (s, held.map (fun x => sampleEvent s x)) := by
  induction held with
  | nil => rfl
  | cons x xs ih =>
    have hx := hh x (List.mem_cons_self _ _)
    rw [run_cons_of_step v s s x xs _ (step_waitRelease_held v s x hpc hx),
      ih (fun y hy => hh y (List.mem_cons_of_mem _ hy))]
    rfl

/-- Zero reads in wait-for-press change nothing but `rowval`. -/
theorem run_waitPress_zeros (v : Variant) (s : State) (zs : List Nat)
    (hpc : s.pc = PC.waitPress) (hz : ∀ x ∈ zs, readRows x = 0) :
    ∃ s1, run v s zs = some (s1, zs.map (fun x => sampleEvent s x)) ∧
      s1.pc = PC.waitPress ∧ s1.odrC = s.odrC ∧ s1.j = s.j ∧ s.sameOutputs s1 := by
  induction zs generalizing s with
  | nil => exact ⟨s, rfl, hpc, rfl, rfl, s.sameOutputs_refl⟩
  | cons x xs ih =>
    have hx := hz x (List.mem_cons_self _ _)
    obtain ⟨s1, hrun, hp, ho, hj, hsame⟩ :=
      ih { s with rowval := 0 } hpc (fun y hy => hz y (List.mem_cons_of_mem _ hy))
    refine ⟨s1, ?_, hp, ho, hj, hsame⟩
    rw [run_cons_of_step v s _ x xs _ (step_waitPress_zero v s x hpc hx), hrun]
    rfl

/-- Claim C10. The loop starts in the wait-for-release step and stays in it while
the row reads (taken with all four columns high) are non-zero; the first zero
read moves it to wait-for-press, and for every number of further zero reads it
is still in wait-for-press, having produced nothing but the reads themselves and
the 10 ms delay: no key event, no column write, no change to the outputs. -/
theorem C10_waits_for_release_then_press (v : Variant) (s0 : State) (held zs : List Nat)
    (z : Nat) (hheld : ∀ x ∈ held, readRows x ≠ 0) (hz : readRows z = 0)
    (hzs : ∀ x ∈ zs, readRows x = 0) :
    (enterJump s0).1.pc = PC.waitRelease ∧
    (∃ s1, runLoop v s0 held = some (s1, Event.bsrrC 0x000000F0 ::
        held.map (fun x => Event.sample 0xF0 (readRows x))) ∧ s1.pc = PC.waitRelease) ∧
    (∃ s2, runLoop v s0 (held ++ z :: zs) = some (s2, Event.bsrrC 0x000000F0 ::
        (held.map (fun x => Event.sample 0xF0 (readRows x)) ++
          Event.sample 0xF0 0 :: Event.delay 10 :: zs.map (fun _ => Event.sample 0xF0 0))) ∧
      s2.pc = PC.waitPress ∧ s0.sameOutputs s2) := by
  have hcols : (enterJump s0).1.odrC &&& 0xF0 = 0xF0 := cols_release s0.odrC
  have hev : ∀ x, sampleEvent (enterJump s0).1 x = Event.sample 0xF0 (readRows x) := by
    intro x; simp only [sampleEvent, hcols]
  have h1 := run_waitRelease_held v (enterJump s0).1 held rfl hheld
  simp only [hev] at h1
  have h2 := step_waitRelease_zero v (enterJump s0).1 z rfl hz
  obtain ⟨s2, h3, hp, -, -, hsame⟩ :=
    run_waitPress_zeros v { (enterJump s0).1 with pc := PC.waitPress } zs rfl hzs
  have hev2 : ∀ x ∈ zs, sampleEvent { (enterJump s0).1 with pc := PC.waitPress } x =
      Event.sample 0xF0 0 := by
    intro x hx
    have := hev x
    simp only [sampleEvent, hzs x hx] at this ⊢
    exact this
  rw [List.map_congr_left hev2] at h3
  refine ⟨rfl, ⟨(enterJump s0).1, ?_, rfl⟩, ⟨s2, ?_, hp, hsame⟩⟩
  · simp only [runLoop, h1]; rfl
  · simp only [runLoop]
    rw [run_append_of_run v _ _ held (z :: zs) _ h1, run_cons_of_step v _ _ z zs _ h2, h3]
    rw [hev z, hz]
    rfl

/-- Instance of C10: two reads with a key still held, the release, three idle reads. -/
theorem C10_waits_for_release_then_press_witness :
    (enterJump (initState 0 0 'x' 0 0 0)).1.pc = PC.waitRelease ∧
    (∃ s1, runLoop Variant.keil (initState 0 0 'x' 0 0 0) [0x0100, 0x0800] =
        some (s1, Event.bsrrC 0x000000F0 ::
          [0x0100, 0x0800].map (fun x => Event.sample 0xF0 (readRows x))) ∧
      s1.pc = PC.waitRelease) ∧
    (∃ s2, runLoop Variant.keil (initState 0 0 'x' 0 0 0) ([0x0100, 0x0800] ++ 0 :: [0, 0, 0]) =
        some (s2, Event.bsrrC 0x000000F0 ::
          ([0x0100, 0x0800].map (fun x => Event.sample 0xF0 (readRows x)) ++
            Event.sample 0xF0 0 :: Event.delay 10 ::
              [0, 0, 0].map (fun _ => Event.sample 0xF0 0))) ∧
      s2.pc = PC.waitPress ∧ (initState 0 0 'x' 0 0 0).sameOutputs s2) :=
  C10_waits_for_release_then_press Variant.keil (initState 0 0 'x' 0 0 0) [0x0100, 0x0800]
    [0, 0, 0] 0 (by decide) (by decide) (by decide)

theorem initState_inBounds (j rowval : Nat) (key_char : Char) (odrA odrB odrC : Nat) :
    (enterJump (initState j rowval key_char odrA odrB odrC)).1.InBounds :=
  ⟨Nat.zero_lt_succ 3, Nat.zero_lt_succ 3, fun h => by cases h⟩

/-- Claim C7. In every execution of the scan loop, over every stream of reads, the
run is defined and between any two key events of its trace there is a row read,
taken with all four columns driven high, that gave zero.  Hence once a key event
has occurred no further key event occurs while every later read is non-zero (a
held key does not repeat), and a step taken in wait-for-release, the release
itself included, emits no key event. -/
theorem C7_one_event_per_press (v : Variant) (j rowval : Nat) (key_char : Char)
    (odrA odrB odrC : Nat) (idrs : List Nat) :
    ∃ s1 tr, runLoop v (initState j rowval key_char odrA odrB odrC) idrs = some (s1, tr) ∧
      KeysSeparated tr ∧
      (∀ pre post e, tr = pre ++ e :: post → e.isKey = true →
        (∀ c r, Event.sample c r ∈ post → r ≠ 0) → post.filter Event.isKey = []) ∧
      (∀ (s : State) (x : Nat), s.pc = PC.waitRelease →
        ∃ s2 evs, step v s x = some (s2, evs) ∧ evs.filter Event.isKey = []) := by
  obtain ⟨s1, tr, hrun, -, -, hk⟩ :=
    run_invariant v (enterJump (initState j rowval key_char odrA odrB odrC)).1 idrs
      (initState_inBounds j rowval key_char odrA odrB odrC) (fun _ => cols_release _)
  have hsep : KeysSeparated (Event.bsrrC 0x000000F0 :: tr) :=
    keysSeparated_of_check true _ (hk true (fun _ => rfl)).1
  refine ⟨s1, Event.bsrrC 0x000000F0 :: tr, ?_, hsep, ?_, ?_⟩
  · simp only [runLoop, hrun]; rfl
  · intro pre post e htr he hheld
    rw [List.filter_eq_nil_iff]
    intro e2 he2 hk2
    obtain ⟨mid, post2, hsplit⟩ := List.append_of_mem he2
    obtain ⟨c, hc, hrel⟩ := hsep pre mid post2 e e2 (by rw [htr, hsplit]) he hk2
    cases c with
    | sample cols r =>
      have hr0 : r = 0 := by
        simp only [Event.isReleaseSample, Bool.and_eq_true, beq_iff_eq] at hrel
        exact hrel.2
      exact hheld cols r (by rw [hsplit]; exact List.mem_append_left _ hc) hr0
    | _ => cases hrel
  · intro s x hpc
    by_cases hx : readRows x = 0
    · exact ⟨_, _, step_waitRelease_zero v s x hpc hx, rfl⟩
    · exact ⟨_, _, step_waitRelease_held v s x hpc hx, rfl⟩

/-- Claim C6. The sweep drives the columns in the order 0, 1, 2, 3 and reads the
rows after each write.  For every sequence `x 0, x 1, x 2, x 3` of reads with
some non-zero mask, `k` being the least index of one: the writes and reads of
the cycle are exactly the writes for columns 0..k, each followed by its read
with only that column high, and then the release-all write, so no column after
`k` is driven or read; `col_index` becomes `k`, and the mask that step 3e decodes
is the read of column `k`.  The state `s` is any state at the second debounce
read whose `row_index` is a valid table index, as it is in every reachable state. -/
theorem C6_first_column_wins (v : Variant) (s : State) (b : Nat) (x : Nat → Nat) (k : Nat)
    (hpc : s.pc = PC.debounce) (hb : readRows b ≠ 0) (hk : k < 4)
    (hzero : ∀ i < k, readRows (x i) = 0) (hnz : readRows (x k) ≠ 0)
    (hrow : s.row_index < 4) :
    ∃ s1 tr ch, run v s (b :: (List.range (k + 1)).map x) = some (s1, tr) ∧
      tr.filter (fun e => e.isDrive || e.isSample) =
        sampleEvent s b ::
          ((List.range (k + 1)).flatMap (fun i =>
              [Event.bsrrC (columnWords.getD i 0), Event.sample (0x10 <<< i) (readRows (x i))])
            ++ [Event.bsrrC 0x000000F0]) ∧
      s1.col_index = k ∧ s1.rowval = readRows (x k) ∧
      s1.row_index = (encodeKey { s with rowval := readRows (x k) }).row_index ∧
      tr.filter Event.isKey = [Event.key s1.row_index k ch] ∧
      s1.pc = PC.waitRelease ∧ s1.odrC &&& 0xF0 = 0xF0 := by
  have hz : ∀ z ∈ (List.range k).map x, readRows z = 0 := by
    intro z hz
    obtain ⟨i, hi, rfl⟩ := List.mem_map.mp hz
    exact hzero i (List.mem_range.mp hi)
  have hlen : ((List.range k).map x).length = k := by simp
  obtain ⟨t, s1, out, ch, hrun, hfs, ht1, ht2, -, -, ht5⟩ :=
    cycle_found v s b (x k) ((List.range k).map x) hpc hb (by rw [hlen]; exact hk) hz hnz
      (encodeKey_row_lt _ hrow)
  rw [hlen] at hrun ht2
  have hsplit : (List.range (k + 1)).map x = (List.range k).map x ++ [x k] := by
    rw [List.range_succ, List.map_append]; rfl
  rw [hsplit, hrun]
  refine ⟨s1, _, ch, rfl, ?_, ?_, ?_, ?_, ?_, hfs.pc_eq, ?_⟩
  · have hf : ∀ l : List Event,
        (Event.sample (0x10 <<< k) (readRows (x k)) :: l).filter
          (fun e => e.isDrive || e.isSample) =
        Event.sample (0x10 <<< k) (readRows (x k)) :: l.filter (fun e => e.isDrive || e.isSample) :=
      fun l => List.filter_cons_of_pos (by rfl)
    rw [List.filter_cons_of_pos (by rfl), List.filter_cons_of_pos (by rfl), List.filter_append,
      sweepEvents_all_io, hf, hfs.drives]
    interval_cases k
    · rfl
    · simp [sweepEvents, List.range_succ, columnWords, hzero 0 (by decide)]
    · simp [sweepEvents, List.range_succ, columnWords, hzero 0 (by decide),
        hzero 1 (by decide)]
    · simp [sweepEvents, List.range_succ, columnWords, hzero 0 (by decide),
        hzero 1 (by decide), hzero 2 (by decide)]
  · rw [hfs.col_eq, ht2]
  · rw [hfs.rowval_eq, ht1]
  · rw [hfs.row_eq, ht5]
  · simp [sampleEvent, Event.isKey, sweepEvents_no_key, hfs.keys, hfs.row_eq, ht2]
  · rw [hfs.odrC_eq]; exact cols_release _

/-- Instance of C6: columns 1 and 3 both respond; column 1 is selected. -/
theorem C6_first_column_wins_witness :
    ∃ s1 tr ch,
      run Variant.keil { initState 0 0 'x' 0 0 0 with pc := PC.debounce }
        (0x0100 :: (List.range (1 + 1)).map (fun i => if i = 1 ∨ i = 3 then 0x0400 else 0)) =
        some (s1, tr) ∧
      tr.filter (fun e => e.isDrive || e.isSample) =
        sampleEvent { initState 0 0 'x' 0 0 0 with pc := PC.debounce } 0x0100 ::
          ((List.range (1 + 1)).flatMap (fun i =>
              [Event.bsrrC (columnWords.getD i 0),
               Event.sample (0x10 <<< i)
                 (readRows ((fun i => if i = 1 ∨ i = 3 then 0x0400 else 0) i))])
            ++ [Event.bsrrC 0x000000F0]) ∧
      s1.col_index = 1 ∧
      s1.rowval = readRows ((fun i => if i = 1 ∨ i = 3 then 0x0400 else 0) 1) ∧
      s1.row_index = (encodeKey { { initState 0 0 'x' 0 0 0 with pc := PC.debounce } with
        rowval := readRows ((fun i => if i = 1 ∨ i = 3 then 0x0400 else 0) 1) }).row_index ∧
      tr.filter Event.isKey = [Event.key s1.row_index 1 ch] ∧
      s1.pc = PC.waitRelease ∧ s1.odrC &&& 0xF0 = 0xF0 :=
  C6_first_column_wins Variant.keil { initState 0 0 'x' 0 0 0 with pc := PC.debounce } 0x0100
    (fun i => if i = 1 ∨ i = 3 then 0x0400 else 0) 1 rfl (by decide) (by decide)
    (by decide) (by decide) (by decide)

/-! ## Debounce -/

theorem State.sameOutputs_trans {s t u : State} (h1 : s.sameOutputs t) (h2 : t.sameOutputs u) :
    s.sameOutputs u := by
  obtain ⟨a1, a2, a3, a4, a5, a6, a7⟩ := h1
  obtain ⟨b1, b2, b3, b4, b5, b6, b7⟩ := h2
  exact ⟨b1.trans a1, b2.trans a2, b3.trans a3, b4.trans a4, b5.trans a5, b6.trans a6,
    b7.trans a7⟩

theorem waitPress_prepend (v : Variant) (s s' : State) (p rest : List Nat) (e : List Event)
    (hrun : run v s p = some (s', e)) (hk : e.filter Event.isKey = [])
    (hd : e.filter Event.isDrive = []) (ho : s'.odrC = s.odrC) (hsame : s.sameOutputs s')
    (h : WaitPressOutcome v s' rest) : WaitPressOutcome v s (p ++ rest) := by
  rcases h with ⟨s1, tr, h1, hpc, hk1, hd1, ho1, hs1⟩ |
    ⟨pre, a, b, post, s0, tr0, s1, hxs, ha, hb, hpre, hp0, hk0, hd0, hfull, hp1, hj1⟩
  · left
    refine ⟨s1, e ++ tr, ?_, hpc, ?_, ?_, ho1.trans ho, State.sameOutputs_trans hsame hs1⟩
    · rw [run_append_of_run v s s' p rest e hrun, h1]; rfl
    · rw [List.filter_append, hk, hk1]; rfl
    · rw [List.filter_append, hd, hd1]; rfl
  · right
    refine ⟨p ++ pre, a, b, post, s0, e ++ tr0, s1, ?_, ha, hb, ?_, hp0, ?_, ?_, ?_, hp1, hj1⟩
    · rw [hxs, List.append_assoc]
    · rw [run_append_of_run v s s' p pre e hrun, hpre]; rfl
    · rw [List.filter_append, hk, hk0]; rfl
    · rw [List.filter_append, hd, hd0]; rfl
    · rw [List.append_assoc, run_append_of_run v s s' p (pre ++ [a, b]) e hrun, hfull, ho]
      simp

theorem waitPress_outcome (v : Variant) (n : Nat) :
    ∀ (xs : List Nat) (s : State), xs.length ≤ n → s.pc = PC.waitPress →
      WaitPressOutcome v s xs := by
  induction n with
  | zero =>
    intro xs s hlen hpc
    have : xs = [] := List.length_eq_zero.mp (Nat.le_zero.mp hlen)
    subst this
    exact Or.inl ⟨s, [], rfl, Or.inl hpc, rfl, rfl, rfl, s.sameOutputs_refl⟩
  | succ n ih =>
    intro xs s hlen hpc
    match xs, hlen with
    | [], _ => exact Or.inl ⟨s, [], rfl, Or.inl hpc, rfl, rfl, rfl, s.sameOutputs_refl⟩
    | x :: rest, hlen =>
      simp only [List.length_cons] at hlen
      by_cases hx : readRows x = 0
      · have hstep := step_waitPress_zero v s x hpc hx
        have hrun : run v s [x] = some ({ s with rowval := 0 }, [sampleEvent s x]) := by
          rw [run_cons_of_step v s _ x [] _ hstep]; rfl
        exact waitPress_prepend v s _ [x] rest _ hrun rfl rfl rfl s.sameOutputs_refl
          (ih rest _ (by omega) hpc)
      · have hstep := step_waitPress_nonzero v s x hpc hx
        match rest, hlen with
        | [], _ =>
          left
          refine ⟨{ s with rowval := readRows x, pc := PC.debounce },
            [sampleEvent s x, Event.delay 10], ?_, Or.inr rfl, rfl, rfl, rfl,
            s.sameOutputs_refl⟩
          rw [run_cons_of_step v s _ x [] _ hstep]; rfl
        | y :: rest2, hlen =>
          simp only [List.length_cons] at hlen
          by_cases hy : readRows y = 0
          · have hstep2 := step_debounce_zero v
              { s with rowval := readRows x, pc := PC.debounce } y rfl hy
            have hrun : run v s [x, y] = some
                ({ s with rowval := 0, pc := PC.waitPress },
                 [sampleEvent s x, Event.delay 10, sampleEvent s y]) := by
              rw [run_cons_of_step v s _ x [y] _ hstep,
                run_cons_of_step v _ _ y [] _ hstep2]
              simp [run, sampleEvent, hpc]
            exact waitPress_prepend v s _ [x, y] rest2 _ hrun rfl rfl rfl s.sameOutputs_refl
              (ih rest2 _ (by omega) rfl)
          · have hstep2 := step_debounce_nonzero v
              { s with rowval := readRows x, pc := PC.debounce } y rfl hy
            right
            refine ⟨[], x, y, rest2, s, [],
              { s with rowval := readRows y, j := 0, pc := PC.scan,
                       odrC := bsrrWrite s.odrC 0x00E00010 },
              rfl, hx, hy, rfl, hpc, rfl, rfl, ?_, rfl, rfl⟩
            rw [List.nil_append, run_cons_of_step v s _ x [y] _ hstep,
              run_cons_of_step v _ _ y [] _ hstep2]
            rfl

/-- Claim C5. In the wait-for-press loop, from any state and for every input stream:
a non-zero read `a` whose re-read `b` after the 10 ms delay is zero emits no key
event, drives no column and leaves the loop in wait-for-press; a non-zero re-read
starts the sweep by driving column 0.  Over any stream `xs`, either the loop is
still waiting (no key event, no column write, outputs untouched) or `xs` holds a
first read and its re-read, both non-zero, before which the loop was waiting and
after which it is in the sweep: the sweep starts only on such a pair. -/
theorem C5_debounce_confirms_press (v : Variant) (s : State) (a b : Nat) (xs : List Nat)
    (hpc : s.pc = PC.waitPress) (ha : readRows a ≠ 0) :
    (readRows b = 0 →
      run v s [a, b] = some ({ s with rowval := 0 },
        [Event.sample (s.odrC &&& 0xF0) (readRows a), Event.delay 10,
         Event.sample (s.odrC &&& 0xF0) 0])) ∧
    (readRows b ≠ 0 →
      run v s [a, b] = some
        ({ s with rowval := readRows b, j := 0, pc := PC.scan,
                  odrC := bsrrWrite s.odrC 0x00E00010 },
         [Event.sample (s.odrC &&& 0xF0) (readRows a), Event.delay 10,
          Event.sample (s.odrC &&& 0xF0) (readRows b), Event.bsrrC 0x00E00010])) ∧
    ((∃ s1 tr, run v s xs = some (s1, tr) ∧ (s1.pc = PC.waitPress ∨ s1.pc = PC.debounce) ∧
        tr.filter Event.isKey = [] ∧ tr.filter Event.isDrive = [] ∧
        s1.odrC = s.odrC ∧ s.sameOutputs s1) ∨
     (∃ pre a1 b1 post s0 tr0 s1, xs = pre ++ a1 :: b1 :: post ∧
        readRows a1 ≠ 0 ∧ readRows b1 ≠ 0 ∧
        run v s pre = some (s0, tr0) ∧ s0.pc = PC.waitPress ∧
        tr0.filter Event.isKey = [] ∧ tr0.filter Event.isDrive = [] ∧
        run v s (pre ++ [a1, b1]) = some (s1, tr0 ++
          [Event.sample (s.odrC &&& 0xF0) (readRows a1), Event.delay 10,
           Event.sample (s.odrC &&& 0xF0) (readRows b1), Event.bsrrC 0x00E00010]) ∧
        s1.pc = PC.scan ∧ s1.j = 0)) := by
  have hstep := step_waitPress_nonzero v s a hpc ha
  refine ⟨?_, ?_, waitPress_outcome v xs.length xs s (Nat.le_refl _) hpc⟩
  · intro hb
    have hstep2 := step_debounce_zero v { s with rowval := readRows a, pc := PC.debounce } b rfl hb
    rw [run_cons_of_step v s _ a [b] _ hstep, run_cons_of_step v _ _ b [] _ hstep2]
    simp [run, sampleEvent, hpc, hb]
  · intro hb
    have hstep2 :=
      step_debounce_nonzero v { s with rowval := readRows a, pc := PC.debounce } b rfl hb
    rw [run_cons_of_step v s _ a [b] _ hstep, run_cons_of_step v _ _ b [] _ hstep2]
    rfl

/-- Instance of C5: a bounce (`0x0100` then zero) and a stream with one bounce
before the confirmed pair. -/
theorem C5_debounce_confirms_press_witness :
    (readRows 0 = 0 →
      run Variant.lcd { initState 0 0 'x' 0 0 0xF0 with pc := PC.waitPress } [0x0100, 0] =
        some ({ { initState 0 0 'x' 0 0 0xF0 with pc := PC.waitPress } with rowval := 0 },
          [Event.sample (0xF0 &&& 0xF0) (readRows 0x0100), Event.delay 10,
           Event.sample (0xF0 &&& 0xF0) 0])) ∧
    (readRows 0 ≠ 0 →
      run Variant.lcd { initState 0 0 'x' 0 0 0xF0 with pc := PC.waitPress } [0x0100, 0] =
        some ({ { initState 0 0 'x' 0 0 0xF0 with pc := PC.waitPress } with
                  rowval := readRows 0, j := 0, pc := PC.scan,
                  odrC := bsrrWrite 0xF0 0x00E00010 },
          [Event.sample (0xF0 &&& 0xF0) (readRows 0x0100), Event.delay 10,
           Event.sample (0xF0 &&& 0xF0) (readRows 0), Event.bsrrC 0x00E00010])) ∧
    WaitPressOutcome Variant.lcd { initState 0 0 'x' 0 0 0xF0 with pc := PC.waitPress }
      [0, 0x0200, 0, 0x0200, 0x0200, 0x0200] :=
  C5_debounce_confirms_press Variant.lcd { initState 0 0 'x' 0 0 0xF0 with pc := PC.waitPress }
    0x0100 0 [0, 0x0200, 0, 0x0200, 0x0200, 0x0200] rfl (by decide)

/-- Claim C2 fails as stated. A press is confirmed and column 0 reads `0x0300`
(two row bits set): the cycle still emits a key event, `'1'` from the row index 0
left over from before the cycle, in both variants. -/
theorem C2_counterexample :
    rowBitCount (readRows 0x0300) = 2 ∧
    (runLoop Variant.keil (initState 0 0 'x' 0 0 0) [0, 0x0300, 0x0300, 0x0300]).map
        (fun r => (r.1.pc, r.1.g_last_keycode, r.1.g_pressed_key, r.2.filter Event.isKey)) =
      some (PC.waitRelease, 0, '1', [Event.key 0 0 '1']) ∧
    (runLoop Variant.lcd (initState 0 0 'x' 0 0 0) [0, 0x0300, 0x0300, 0x0300]).map
        (fun r => (r.1.pc, r.1.key_char, r.2.filter Event.isKey)) =
      some (PC.waitRelease, '1', [Event.key 0 0 '1']) := by
  decide

/-- Claim C2, amended. When the mask read at decode time after a confirmed press
(the non-zero read that ends the sweep, or the zero read of column 3) has zero or
at least two row bits set, step 3e assigns no row: `row_index` keeps the value it
had before the cycle.  Step 3f still runs once, with that `row_index`, and the
loop then resumes the wait-for-release step with all columns released. -/
theorem C2_ambiguous_mask_keeps_row (v : Variant) (s : State) (x : Nat)
    (hpc : s.pc = PC.scan) (hj : s.j < 4) (hrow : s.row_index < 4) (hcol : s.col_index < 4)
    (hdec : readRows x ≠ 0 ∨ s.j = 3) (hbits : rowBitCount (readRows x) ≠ 1) :
    ∃ s1 evs ch, step v s x = some (s1, evs) ∧
      s1.row_index = s.row_index ∧
      s1.col_index = (if readRows x ≠ 0 then s.j else s.col_index) ∧
      evs.filter Event.isKey = [Event.key s.row_index s1.col_index ch] ∧
      evs.filter Event.isDrive = [Event.bsrrC 0x000000F0] ∧
      s1.pc = PC.waitRelease ∧ s1.odrC &&& 0xF0 = 0xF0 := by
  have hio : ∀ evs : List Event,
      evs.filter (fun e => e.isDrive || e.isSample) = [Event.bsrrC 0x000000F0] →
      evs.filter Event.isDrive = [Event.bsrrC 0x000000F0] := by
    intro evs h
    have h2 : evs.filter Event.isDrive =
        (evs.filter (fun e => e.isDrive || e.isSample)).filter Event.isDrive := by
      rw [List.filter_filter]
      congr 1
      funext e
      cases e <;> rfl
    rw [h2, h]; rfl
  by_cases hx : readRows x = 0
  · have hj3 : s.j = 3 := by
      rcases hdec with h | h
      · exact absurd hx h
      · exact h
    have henc : encodeKey { s with rowval := 0, j := 4 } = { s with rowval := 0, j := 4 } :=
      encodeKey_of_not_row _ (by show rowBitCount 0 ≠ 1; decide)
    obtain ⟨s1, out, ch, hf, hfs⟩ :=
      finishCycle_spec v { s with rowval := 0, j := 4 } (by rw [henc]; exact hrow) hcol
    refine ⟨s1, sampleEvent s x :: out, ch, ?_, ?_, ?_, ?_, ?_, hfs.pc_eq, ?_⟩
    · rw [step_scan_none v s x hpc hj3 hx, hf]; rfl
    · rw [hfs.row_eq, henc]
    · rw [hfs.col_eq]; simp [hx]
    · rw [List.filter_cons_of_neg (by simp [sample_not_key]), hfs.keys, henc, hfs.col_eq]
    · rw [List.filter_cons_of_neg (by simp [sampleEvent, Event.isDrive]), hio out hfs.drives]
    · rw [hfs.odrC_eq]; exact cols_release _
  · have henc : encodeKey { s with rowval := readRows x, col_index := s.j } =
        { s with rowval := readRows x, col_index := s.j } :=
      encodeKey_of_not_row _ hbits
    obtain ⟨s1, out, ch, hf, hfs⟩ :=
      finishCycle_spec v { s with rowval := readRows x, col_index := s.j }
        (by rw [henc]; exact hrow) hj
    refine ⟨s1, sampleEvent s x :: out, ch, ?_, ?_, ?_, ?_, ?_, hfs.pc_eq, ?_⟩
    · rw [step_scan_found v s x hpc hx, hf]; rfl
    · rw [hfs.row_eq, henc]
    · rw [hfs.col_eq]; simp [hx]
    · rw [List.filter_cons_of_neg (by simp [sample_not_key]), hfs.keys, henc, hfs.col_eq]
    · rw [List.filter_cons_of_neg (by simp [sampleEvent, Event.isDrive]), hio out hfs.drives]
    · rw [hfs.odrC_eq]; exact cols_release _

/-- Instance of amended C2: column 1 reads all four row bits while `row_index` is 2. -/
theorem C2_ambiguous_mask_keeps_row_witness :
    ∃ s1 evs ch,
      step Variant.keil { initState 1 0 'x' 0 0 0x20 with pc := PC.scan, row_index := 2 } 0x0F00 =
        some (s1, evs) ∧
      s1.row_index = 2 ∧
      s1.col_index = (if readRows 0x0F00 ≠ 0 then 1 else 0) ∧
      evs.filter Event.isKey = [Event.key 2 s1.col_index ch] ∧
      evs.filter Event.isDrive = [Event.bsrrC 0x000000F0] ∧
      s1.pc = PC.waitRelease ∧ s1.odrC &&& 0xF0 = 0xF0 :=
  C2_ambiguous_mask_keeps_row Variant.keil
    { initState 1 0 'x' 0 0 0x20 with pc := PC.scan, row_index := 2 } 0x0F00
    rfl (by decide) (by decide) (by decide) (by decide) (by decide)

/-- Claim C3 fails as stated. A first cycle produces `'6'` (row 1, column 2); in the
next cycle the press is confirmed and all four columns read zero, and the cycle
emits a second key event `'6'`, built from the row and column index of the
earlier cycle. -/
theorem C3_counterexample :
    (runLoop Variant.keil (initState 0 0 'x' 0 0 0)
        [0, 0x0200, 0x0200, 0, 0, 0x0200, 0, 0x0100, 0x0100, 0, 0, 0, 0]).map
        (fun r => (r.1.pc, r.1.g_pressed_key, r.2.filter Event.isKey)) =
      some (PC.waitRelease, '6', [Event.key 1 2 '6', Event.key 1 2 '6']) ∧
    (runLoop Variant.lcd (initState 0 0 'x' 0 0 0)
        [0, 0x0200, 0x0200, 0, 0, 0x0200, 0, 0x0100, 0x0100, 0, 0, 0, 0]).map
        (fun r => (r.1.pc, r.1.key_char, r.2.filter Event.isKey)) =
      some (PC.waitRelease, '6', [Event.key 1 2 '6', Event.key 1 2 '6']) := by
  decide

/-- Claim C3, amended. If, after a confirmed press, all four columns read zero, the
sweep assigns neither `col_index` nor `row_index`: both keep the values they had
before the cycle.  Step 3f still runs once, with those indexes, and the loop
then resumes the wait-for-release step. -/
theorem C3_no_column_keeps_indexes (v : Variant) (s : State) (a b z0 z1 z2 z3 : Nat)
    (hpc : s.pc = PC.waitPress) (ha : readRows a ≠ 0) (hb : readRows b ≠ 0)
    (h0 : readRows z0 = 0) (h1 : readRows z1 = 0) (h2 : readRows z2 = 0)
    (h3 : readRows z3 = 0) (hrow : s.row_index < 4) (hcol : s.col_index < 4) :
    ∃ s1 tr ch, run v s [a, b, z0, z1, z2, z3] = some (s1, tr) ∧
      s1.row_index = s.row_index ∧ s1.col_index = s.col_index ∧
      keypad_at s.row_index s.col_index = some ch ∧
      tr.filter Event.isKey = [Event.key s.row_index s.col_index ch] ∧
      tr.filter Event.isDrive =
        [Event.bsrrC 0x00E00010, Event.bsrrC 0x00D00020, Event.bsrrC 0x00B00040,
         Event.bsrrC 0x00700080, Event.bsrrC 0x000000F0] ∧
      s1.pc = PC.waitRelease := by
  have hstep := step_waitPress_nonzero v s a hpc ha
  obtain ⟨t, s1, out, ch, hrun, hfs, ht1, ht2, ht3, henc⟩ :=
    cycle_none v { s with rowval := readRows a, pc := PC.debounce } b z0 z1 z2 z3 rfl hb
      h0 h1 h2 h3 hrow hcol
  simp only at ht2 ht3
  have hio : out.filter Event.isDrive = [Event.bsrrC 0x000000F0] := by
    have h2 : out.filter Event.isDrive =
        (out.filter (fun e => e.isDrive || e.isSample)).filter Event.isDrive := by
      rw [List.filter_filter]
      congr 1
      funext e
      cases e <;> rfl
    rw [h2, hfs.drives]; rfl
  rw [run_cons_of_step v s _ a _ _ hstep, hrun]
  refine ⟨s1, _, ch, rfl, ?_, ?_, ?_, ?_, ?_, hfs.pc_eq⟩
  · rw [hfs.row_eq, henc, ht3]
  · rw [hfs.col_eq, ht2]
  · have hl := hfs.lookup
    rw [henc, ht2, ht3] at hl
    exact hl
  · simp [sampleEvent, Event.isKey, sweepEvents, hfs.keys, henc, ht2, ht3]
  · simp [sampleEvent, Event.isDrive, sweepEvents, hio, columnWords]

/-- Instance of amended C3: indexes (3, 1) left by an earlier cycle are kept. -/
theorem C3_no_column_keeps_indexes_witness :
    ∃ s1 tr ch,
      run Variant.lcd
        { initState 0 0 'x' 0 0 0xF0 with pc := PC.waitPress, row_index := 3, col_index := 1 }
        [0x0800, 0x0800, 0, 0, 0, 0] = some (s1, tr) ∧
      s1.row_index = 3 ∧ s1.col_index = 1 ∧
      keypad_at 3 1 = some ch ∧
      tr.filter Event.isKey = [Event.key 3 1 ch] ∧
      tr.filter Event.isDrive =
        [Event.bsrrC 0x00E00010, Event.bsrrC 0x00D00020, Event.bsrrC 0x00B00040,
         Event.bsrrC 0x00700080, Event.bsrrC 0x000000F0] ∧
      s1.pc = PC.waitRelease :=
  C3_no_column_keeps_indexes Variant.lcd
    { initState 0 0 'x' 0 0 0xF0 with pc := PC.waitPress, row_index := 3, col_index := 1 }
    0x0800 0x0800 0 0 0 0 rfl (by decide) (by decide) (by decide) (by decide) (by decide)
    (by decide) (by decide) (by decide)

/-! ## The key map -/

/-- Claim C11. The fixed key map is injective on the positions with row and
column in 0..3: equal entries at `(r1, c1)` and `(r2, c2)` force `r1 = r2` and
`c1 = c2`, so the 16 symbols are pairwise distinct; and the lookup is defined at
every such position, where it gives the entry of the table as written in the
source, read row by row. -/
theorem C11_keypad_map_injective (r1 c1 r2 c2 : Nat)
    (hr1 : r1 < 4) (hc1 : c1 < 4) (hr2 : r2 < 4) (hc2 : c2 < 4) :
    (keypad_at r1 c1 = keypad_at r2 c2 → r1 = r2 ∧ c1 = c2) ∧
    (∃ ch, keypad_at r1 c1 = some ch ∧
      ['1', '2', '3', 'A', '4', '5', '6', 'B', '7', '8', '9', 'C', '*', '0', '#', 'D'][4 * r1 + c1]?
        = some ch) := by
  interval_cases r1 <;> interval_cases c1 <;> refine ⟨?_, ⟨_, rfl, rfl⟩⟩ <;>
    interval_cases r2 <;> interval_cases c2 <;> decide

/-- Instance of C11: the positions (0, 3) and (3, 3), holding `'A'` and `'D'`. -/
theorem C11_keypad_map_injective_witness :
    (keypad_at 0 3 = keypad_at 3 3 → 0 = 3 ∧ 3 = 3) ∧
    (∃ ch, keypad_at 0 3 = some ch ∧
      ['1', '2', '3', 'A', '4', '5', '6', 'B', '7', '8', '9', 'C', '*', '0', '#', 'D'][4 * 0 + 3]?
        = some ch) :=
  C11_keypad_map_injective 0 3 3 3 (by decide) (by decide) (by decide) (by decide)

/-! ## The delay loop -/

theorem innerLoop_spec (k : Nat) :
    ∀ (fuel : Nat) (d : DelayState), d.j + k = 3180 → k < fuel →
      innerLoop fuel d = some { d with j := 3180, nops := d.nops + k } := by
  induction k with
  | zero =>
    intro fuel d hj hf
    obtain ⟨n, rfl⟩ : ∃ n, fuel = n + 1 := ⟨fuel - 1, by omega⟩
    have hd : d.j = 3180 := by omega
    rw [innerLoop, if_neg (by omega)]
    cases d
    simp only at hd
    subst hd
    rfl
  | succ k ih =>
    intro fuel d hj hf
    obtain ⟨n, rfl⟩ : ∃ n, fuel = n + 1 := ⟨fuel - 1, by omega⟩
    have hlt : d.j < 3180 := by omega
    have hmod : (d.j + 1) % 2 ^ 32 = d.j + 1 := Nat.mod_eq_of_lt (by omega)
    have hw : decide (2 ^ 32 ≤ d.j + 1) = false := by
      rw [decide_eq_false_iff_not]; omega
    rw [innerLoop, if_pos hlt, hmod, hw, Bool.or_false]
    rw [ih n _ (by simp only; omega) (by omega)]
    simp only [Option.some.injEq, DelayState.mk.injEq, and_true, true_and]
    omega

theorem outerLoop_spec (fuel ms : Nat) (hms : ms < 2 ^ 32) (hfuel : 3180 < fuel) (k : Nat) :
    ∀ (n : Nat) (d : DelayState), d.i + k = ms → k < n →
      outerLoop fuel ms n d =
        some { d with i := ms, j := if k = 0 then d.j else 3180, nops := d.nops + 3180 * k } := by
  induction k with
  | zero =>
    intro n d hi hn
    obtain ⟨m, rfl⟩ : ∃ m, n = m + 1 := ⟨n - 1, by omega⟩
    have hd : d.i = ms := by omega
    rw [outerLoop, if_neg (by omega)]
    cases d
    simp only at hd
    subst hd
    rfl
  | succ k ih =>
    intro n d hi hn
    obtain ⟨m, rfl⟩ : ∃ m, n = m + 1 := ⟨n - 1, by omega⟩
    have hlt : d.i < ms := by omega
    have hmod : (d.i + 1) % 2 ^ 32 = d.i + 1 := Nat.mod_eq_of_lt (by omega)
    have hw : decide (2 ^ 32 ≤ d.i + 1) = false := by
      rw [decide_eq_false_iff_not]; omega
    rw [outerLoop, if_pos hlt, innerLoop_spec 3180 fuel { d with j := 0 } rfl hfuel]
    simp only [hmod, hw, Bool.or_false]
    rw [ih m _ (by simp only; omega) (by omega)]
    simp only [Option.some.injEq, DelayState.mk.injEq, and_true, true_and]
    refine ⟨by simp, by omega⟩

/-- Claim C19. For every 32-bit `ms`, `msdelay(ms)` terminates (any fuel above
both `ms` and 3180 is enough for it to return) and has executed `__NOP()` exactly
`3180 * ms` times, none for `ms = 0`; on return `i = ms`, and no increment of
either counter has wrapped around. -/
theorem C19_msdelay_counts (fuel ms j0 : Nat) (hms : ms < 2 ^ 32) (hf1 : ms < fuel)
    (hf2 : 3180 < fuel) :
    msdelay fuel ms j0 =
        some { i := ms, j := if ms = 0 then j0 else 3180, nops := 3180 * ms, wrapped := false } ∧
    msdelay fuel 0 j0 = some { i := 0, j := j0, nops := 0, wrapped := false } := by
  constructor
  · rw [msdelay, outerLoop_spec fuel ms hms hf2 ms fuel _ (by simp) hf1]
    simp
  · rw [msdelay, outerLoop_spec fuel 0 (by norm_num) hf2 0 fuel _ rfl (by omega)]
    rfl

/-- Instance of C19: the 10 ms debounce delay runs the body 31800 times. -/
theorem C19_msdelay_counts_witness :
    msdelay 3181 10 0 =
        some { i := 10, j := if 10 = 0 then 0 else 3180, nops := 3180 * 10, wrapped := false } ∧
    msdelay 3181 0 0 = some { i := 0, j := 0, nops := 0, wrapped := false } :=
  C19_msdelay_counts 3181 10 0 (by decide) (by decide) (by decide)

/-! ## The display driver -/

/-- Bits of a 16-bit constant from position 16 on are zero. -/
theorem testBit_ge16 {c i : Nat} (hc : c < 2 ^ 16) (hi : 16 ≤ i) : c.testBit i = false :=
  Nat.testBit_lt_two_pow (lt_of_lt_of_le hc (Nat.pow_le_pow_right (by norm_num) hi))

theorem testBit_byte_high {b i : Nat} (hb : b < 256) (hi : 8 ≤ i) : b.testBit i = false :=
  Nat.testBit_lt_two_pow (lt_of_lt_of_le (by simpa using hb)
    (Nat.pow_le_pow_right (by norm_num) hi))

theorem testBit_FF00 (i : Nat) : (0xFF00 : Nat).testBit i = decide (8 ≤ i ∧ i < 16) := by
  by_cases h : i < 16
  · interval_cases i <;> decide
  · rw [testBit_ge16 (by norm_num) (by omega)]; simp; omega

theorem testBit_FF7F (i : Nat) : (0xFF7F : Nat).testBit i = decide (i < 16 ∧ i ≠ 7) := by
  by_cases h : i < 16
  · interval_cases i <;> decide
  · rw [testBit_ge16 (by norm_num) (by omega)]; simp; omega

theorem testBit_FFDF (i : Nat) : (0xFFDF : Nat).testBit i = decide (i < 16 ∧ i ≠ 5) := by
  by_cases h : i < 16
  · interval_cases i <;> decide
  · rw [testBit_ge16 (by norm_num) (by omega)]; simp; omega

theorem testBit_0020 (i : Nat) : (0x0020 : Nat).testBit i = decide (i = 5) := by
  by_cases h : i < 16
  · interval_cases i <;> decide
  · rw [testBit_ge16 (by norm_num) (by omega)]; simp; omega

theorem testBit_0080 (i : Nat) : (0x0080 : Nat).testBit i = decide (i = 7) := by
  by_cases h : i < 16
  · interval_cases i <;> decide
  · rw [testBit_ge16 (by norm_num) (by omega)]; simp; omega

/-- The data bus after `GPIOB->ODR = (GPIOB->ODR & 0xFF00) | b` for a byte `b`. -/
theorem testBit_bus (odrB b i : Nat) (hb : b < 256) :
    ((odrB &&& 0xFF00) ||| b).testBit i =
      if i < 8 then b.testBit i else if i < 16 then odrB.testBit i else false := by
  rw [Nat.testBit_or, Nat.testBit_and, testBit_FF00]
  by_cases h8 : i < 8
  · have : ¬ (8 ≤ i ∧ i < 16) := by omega
    simp [h8, this]
  · rw [testBit_byte_high hb (by omega)]
    by_cases h16 : i < 16
    · have : 8 ≤ i ∧ i < 16 := by omega
      simp [h8, h16, this]
    · have : ¬ (8 ≤ i ∧ i < 16) := by omega
      simp [h8, h16, this]

/-- The enable pulse: bit 5 is set and then cleared, the other bits of 0..15 stay. -/
theorem testBit_pulse (a1 i : Nat) (hi : i < 16) :
    (a1 ||| 0x0020).testBit i = (if i = 5 then true else a1.testBit i) ∧
    ((a1 ||| 0x0020) &&& 0xFFDF).testBit i = (if i = 5 then false else a1.testBit i) := by
  rw [Nat.testBit_and, Nat.testBit_or, testBit_0020, testBit_FFDF]
  by_cases h5 : i = 5
  · simp [h5]
  · simp [h5, hi]

/-- Claim C13. For every byte `b` and every prior value of the GPIOA and GPIOB
output registers, `LCD_cmd(b)` and `LCD_disp(b)` follow the enable-pulse
protocol, in this order: write the data bus (low 8 bits of GPIOB become `b`,
bits 8..15 keep their value), write RS (PA7 cleared by `LCD_cmd`, set by
`LCD_disp`), set EN (PA5), delay 1 ms, clear EN, delay 50 ms.  On return EN is
low and, of the GPIOA output bits 0..15, only bits 5 and 7 can differ from
their value on entry; R/W (PA6) keeps its value at every write. -/
theorem C13_enable_pulse_protocol (s : State) (b : Nat) (hb : b < 256) :
    (∃ B a1 a2 a3,
      LCD_cmd s b = ({ s with odrB := B, odrA := a3 },
        [Event.lcd_cmd b, Event.odrB B, Event.odrA a1, Event.odrA a2, Event.delay 1,
         Event.odrA a3, Event.delay 50]) ∧
      (∀ i, B.testBit i =
        if i < 8 then b.testBit i else if i < 16 then s.odrB.testBit i else false) ∧
      (∀ i, i < 16 → a1.testBit i = if i = 7 then false else s.odrA.testBit i) ∧
      (∀ i, i < 16 → a2.testBit i = if i = 5 then true else a1.testBit i) ∧
      (∀ i, i < 16 → a3.testBit i = if i = 5 then false else a1.testBit i) ∧
      (∀ i, i < 16 → i ≠ 5 → i ≠ 7 → a3.testBit i = s.odrA.testBit i) ∧
      a1.testBit 6 = s.odrA.testBit 6 ∧ a2.testBit 6 = s.odrA.testBit 6 ∧
      a3.testBit 6 = s.odrA.testBit 6) ∧
    (∃ B a1 a2 a3,
      LCD_disp s b = ({ s with odrB := B, odrA := a3 },
        [Event.lcd_disp b, Event.odrB B, Event.odrA a1, Event.odrA a2, Event.delay 1,
         Event.odrA a3, Event.delay 50]) ∧
      (∀ i, B.testBit i =
        if i < 8 then b.testBit i else if i < 16 then s.odrB.testBit i else false) ∧
      (∀ i, i < 16 → a1.testBit i = if i = 7 then true else s.odrA.testBit i) ∧
      (∀ i, i < 16 → a2.testBit i = if i = 5 then true else a1.testBit i) ∧
      (∀ i, i < 16 → a3.testBit i = if i = 5 then false else a1.testBit i) ∧
      (∀ i, i < 16 → i ≠ 5 → i ≠ 7 → a3.testBit i = s.odrA.testBit i) ∧
      a1.testBit 6 = s.odrA.testBit 6 ∧ a2.testBit 6 = s.odrA.testBit 6 ∧
      a3.testBit 6 = s.odrA.testBit 6) := by
  have hcmd : ∀ i, i < 16 →
      (s.odrA &&& 0xFF7F).testBit i = if i = 7 then false else s.odrA.testBit i := by
    intro i hi
    rw [Nat.testBit_and, testBit_FF7F]
    by_cases h7 : i = 7
    · simp [h7]
    · simp [h7, hi]
  have hdisp : ∀ i,
      (s.odrA ||| 0x0080).testBit i = if i = 7 then true else s.odrA.testBit i := by
    intro i
    rw [Nat.testBit_or, testBit_0080]
    by_cases h7 : i = 7
    · simp [h7]
    · simp [h7]
  constructor
  · refine ⟨(s.odrB &&& 0xFF00) ||| b, s.odrA &&& 0xFF7F, (s.odrA &&& 0xFF7F) ||| 0x0020,
      ((s.odrA &&& 0xFF7F) ||| 0x0020) &&& 0xFFDF, rfl, fun i => testBit_bus s.odrB b i hb,
      hcmd, fun i hi => (testBit_pulse _ i hi).1, fun i hi => (testBit_pulse _ i hi).2,
      ?_, ?_, ?_, ?_⟩
    · intro i hi h5 h7
      rw [(testBit_pulse _ i hi).2, if_neg h5, hcmd i hi, if_neg h7]
    · rw [hcmd 6 (by norm_num)]; rfl
    · rw [(testBit_pulse _ 6 (by norm_num)).1, hcmd 6 (by norm_num)]; rfl
    · rw [(testBit_pulse _ 6 (by norm_num)).2, hcmd 6 (by norm_num)]; rfl
  · refine ⟨(s.odrB &&& 0xFF00) ||| b, s.odrA ||| 0x0080, (s.odrA ||| 0x0080) ||| 0x0020,
      ((s.odrA ||| 0x0080) ||| 0x0020) &&& 0xFFDF, rfl, fun i => testBit_bus s.odrB b i hb,
      fun i _ => hdisp i, fun i hi => (testBit_pulse _ i hi).1,
      fun i hi => (testBit_pulse _ i hi).2, ?_, ?_, ?_, ?_⟩
    · intro i hi h5 h7
      rw [(testBit_pulse _ i hi).2, if_neg h5, hdisp i, if_neg h7]
    · rw [hdisp 6]; rfl
    · rw [(testBit_pulse _ 6 (by norm_num)).1, hdisp 6]; rfl
    · rw [(testBit_pulse _ 6 (by norm_num)).2, hdisp 6]; rfl

/-- Instance of C13: the byte `0xC0` sent from registers with all sixteen bits high. -/
theorem C13_enable_pulse_protocol_witness :
    (∃ B a1 a2 a3,
      LCD_cmd (initState 0 0 (Char.ofNat 0) 0xFFFF 0xFFFF 0) 0xC0 =
        ({ (initState 0 0 (Char.ofNat 0) 0xFFFF 0xFFFF 0) with odrB := B, odrA := a3 },
         [Event.lcd_cmd 0xC0, Event.odrB B, Event.odrA a1, Event.odrA a2, Event.delay 1,
          Event.odrA a3, Event.delay 50]) ∧
      (∀ i, B.testBit i =
        if i < 8 then (0xC0 : Nat).testBit i
        else if i < 16 then (initState 0 0 (Char.ofNat 0) 0xFFFF 0xFFFF 0).odrB.testBit i else false) ∧
      (∀ i, i < 16 → a1.testBit i =
        if i = 7 then false else (initState 0 0 (Char.ofNat 0) 0xFFFF 0xFFFF 0).odrA.testBit i) ∧
      (∀ i, i < 16 → a2.testBit i = if i = 5 then true else a1.testBit i) ∧
      (∀ i, i < 16 → a3.testBit i = if i = 5 then false else a1.testBit i) ∧
      (∀ i, i < 16 → i ≠ 5 → i ≠ 7 →
        a3.testBit i = (initState 0 0 (Char.ofNat 0) 0xFFFF 0xFFFF 0).odrA.testBit i) ∧
      a1.testBit 6 = (initState 0 0 (Char.ofNat 0) 0xFFFF 0xFFFF 0).odrA.testBit 6 ∧
      a2.testBit 6 = (initState 0 0 (Char.ofNat 0) 0xFFFF 0xFFFF 0).odrA.testBit 6 ∧
      a3.testBit 6 = (initState 0 0 (Char.ofNat 0) 0xFFFF 0xFFFF 0).odrA.testBit 6) ∧
    (∃ B a1 a2 a3,
      LCD_disp (initState 0 0 (Char.ofNat 0) 0xFFFF 0xFFFF 0) 0xC0 =
        ({ (initState 0 0 (Char.ofNat 0) 0xFFFF 0xFFFF 0) with odrB := B, odrA := a3 },
         [Event.lcd_disp 0xC0, Event.odrB B, Event.odrA a1, Event.odrA a2, Event.delay 1,
          Event.odrA a3, Event.delay 50]) ∧
      (∀ i, B.testBit i =
        if i < 8 then (0xC0 : Nat).testBit i
        else if i < 16 then (initState 0 0 (Char.ofNat 0) 0xFFFF 0xFFFF 0).odrB.testBit i else false) ∧
      (∀ i, i < 16 → a1.testBit i =
        if i = 7 then true else (initState 0 0 (Char.ofNat 0) 0xFFFF 0xFFFF 0).odrA.testBit i) ∧
      (∀ i, i < 16 → a2.testBit i = if i = 5 then true else a1.testBit i) ∧
      (∀ i, i < 16 → a3.testBit i = if i = 5 then false else a1.testBit i) ∧
      (∀ i, i < 16 → i ≠ 5 → i ≠ 7 →
        a3.testBit i = (initState 0 0 (Char.ofNat 0) 0xFFFF 0xFFFF 0).odrA.testBit i) ∧
      a1.testBit 6 = (initState 0 0 (Char.ofNat 0) 0xFFFF 0xFFFF 0).odrA.testBit 6 ∧
      a2.testBit 6 = (initState 0 0 (Char.ofNat 0) 0xFFFF 0xFFFF 0).odrA.testBit 6 ∧
      a3.testBit 6 = (initState 0 0 (Char.ofNat 0) 0xFFFF 0xFFFF 0).odrA.testBit 6) :=
  C13_enable_pulse_protocol (initState 0 0 (Char.ofNat 0) 0xFFFF 0xFFFF 0) 0xC0 (by decide)

/-! ## GPIO configuration -/

theorem pinField_and (x m pin : Nat) :
    pinField (x &&& m) pin = pinField x pin &&& pinField m pin := by
  apply Nat.eq_of_testBit_eq
  intro i
  simp only [pinField, Nat.testBit_and, Nat.testBit_shiftRight]
  cases x.testBit (2 * pin + i) <;> cases m.testBit (2 * pin + i) <;>
    cases (3 : Nat).testBit i <;> rfl

theorem pinField_or (x m pin : Nat) :
    pinField (x ||| m) pin = pinField x pin ||| pinField m pin := by
  apply Nat.eq_of_testBit_eq
  intro i
  simp only [pinField, Nat.testBit_and, Nat.testBit_or, Nat.testBit_shiftRight]
  cases x.testBit (2 * pin + i) <;> cases m.testBit (2 * pin + i) <;>
    cases (3 : Nat).testBit i <;> rfl

theorem pinBit_and (x m pin : Nat) :
    pinBit (x &&& m) pin = pinBit x pin &&& pinBit m pin := by
  apply Nat.eq_of_testBit_eq
  intro i
  simp only [pinBit, Nat.testBit_and, Nat.testBit_shiftRight]
  cases x.testBit (pin + i) <;> cases m.testBit (pin + i) <;>
    cases (1 : Nat).testBit i <;> rfl

theorem pinField_lt (x pin : Nat) : pinField x pin < 4 := by
  have h : (3 : Nat) = 2 ^ 2 - 1 := by norm_num
  rw [pinField, h, Nat.and_pow_two_sub_one_eq_mod]
  exact Nat.mod_lt _ (by norm_num)

theorem pinBit_lt (x pin : Nat) : pinBit x pin < 2 := by
  rw [pinBit, Nat.and_one_is_mod]
  exact Nat.mod_lt _ (by norm_num)

/-- A masked-then-set two-bit field, for a mask `m` and a set word `k`. -/
theorem pinField_mask_set (x m k pin : Nat) :
    pinField ((x &&& m) ||| k) pin = (pinField x pin &&& pinField m pin) ||| pinField k pin := by
  rw [pinField_or, pinField_and]

/-- Claim C14. For every initial value of the configuration registers and every
pin 0..15, the initialisation of the display variant leaves PC4..PC7 as outputs
(MODER field 01), push-pull (OTYPER bit 0), no pull (PUPDR field 00); PA8..PA11
as inputs (00) with pull-down (10); PA5..PA7 and PB0..PB7 as outputs, push-pull,
no pull; and the fields of every pin outside these sets as they were.  The Keil
variant gives the same for PC4..PC7 and PA8..PA11 (mode and pull) and leaves
every other field, the whole of GPIOA's OTYPER and all of GPIOB as they were. -/
theorem C14_gpio_configuration (c : GpioConfig) (pin : Nat) (hpin : pin < 16) :
    (pinField (gpioInit_lcd c).moderC pin =
        if 4 ≤ pin ∧ pin ≤ 7 then 1 else pinField c.moderC pin) ∧
    (pinBit (gpioInit_lcd c).otyperC pin =
        if 4 ≤ pin ∧ pin ≤ 7 then 0 else pinBit c.otyperC pin) ∧
    (pinField (gpioInit_lcd c).pupdrC pin =
        if 4 ≤ pin ∧ pin ≤ 7 then 0 else pinField c.pupdrC pin) ∧
    (pinField (gpioInit_lcd c).moderA pin =
        if 5 ≤ pin ∧ pin ≤ 7 then 1 else if 8 ≤ pin ∧ pin ≤ 11 then 0
        else pinField c.moderA pin) ∧
    (pinBit (gpioInit_lcd c).otyperA pin =
        if 5 ≤ pin ∧ pin ≤ 11 then 0 else pinBit c.otyperA pin) ∧
    (pinField (gpioInit_lcd c).pupdrA pin =
        if 5 ≤ pin ∧ pin ≤ 7 then 0 else if 8 ≤ pin ∧ pin ≤ 11 then 2
        else pinField c.pupdrA pin) ∧
    (pinField (gpioInit_lcd c).moderB pin =
        if pin ≤ 7 then 1 else pinField c.moderB pin) ∧
    (pinBit (gpioInit_lcd c).otyperB pin =
        if pin ≤ 7 then 0 else pinBit c.otyperB pin) ∧
    (pinField (gpioInit_lcd c).pupdrB pin =
        if pin ≤ 7 then 0 else pinField c.pupdrB pin) ∧
    (pinField (gpioInit_keil c).moderC pin =
        if 4 ≤ pin ∧ pin ≤ 7 then 1 else pinField c.moderC pin) ∧
    (pinBit (gpioInit_keil c).otyperC pin =
        if 4 ≤ pin ∧ pin ≤ 7 then 0 else pinBit c.otyperC pin) ∧
    (pinField (gpioInit_keil c).pupdrC pin =
        if 4 ≤ pin ∧ pin ≤ 7 then 0 else pinField c.pupdrC pin) ∧
    (pinField (gpioInit_keil c).moderA pin =
        if 8 ≤ pin ∧ pin ≤ 11 then 0 else pinField c.moderA pin) ∧
    (pinField (gpioInit_keil c).pupdrA pin =
        if 8 ≤ pin ∧ pin ≤ 11 then 2 else pinField c.pupdrA pin) ∧
    (gpioInit_keil c).otyperA = c.otyperA ∧ (gpioInit_keil c).moderB = c.moderB ∧
    (gpioInit_keil c).otyperB = c.otyperB ∧ (gpioInit_keil c).pupdrB = c.pupdrB := by
  refine ⟨?_, ?_, ?_, ?_, ?_, ?_, ?_, ?_, ?_, ?_, ?_, ?_, ?_, ?_, rfl, rfl, rfl, rfl⟩
  · show pinField ((c.moderC &&& 0xFFFF00FF) ||| 0x00005500) pin = _
    rw [pinField_mask_set]
    have hy := pinField_lt c.moderC pin
    generalize pinField c.moderC pin = y at hy ⊢
    interval_cases pin <;> interval_cases y <;> decide
  · show pinBit (c.otyperC &&& 0xFFFFFF0F) pin = _
    rw [pinBit_and]
    have hy := pinBit_lt c.otyperC pin
    generalize pinBit c.otyperC pin = y at hy ⊢
    interval_cases pin <;> interval_cases y <;> decide
  · show pinField (c.pupdrC &&& 0xFFFF00FF) pin = _
    rw [pinField_and]
    have hy := pinField_lt c.pupdrC pin
    generalize pinField c.pupdrC pin = y at hy ⊢
    interval_cases pin <;> interval_cases y <;> decide
  · show pinField ((c.moderA &&& 0xFF0003FF) ||| 0x00005400) pin = _
    rw [pinField_mask_set]
    have hy := pinField_lt c.moderA pin
    generalize pinField c.moderA pin = y at hy ⊢
    interval_cases pin <;> interval_cases y <;> decide
  · show pinBit (c.otyperA &&& 0xFFFFF01F) pin = _
    rw [pinBit_and]
    have hy := pinBit_lt c.otyperA pin
    generalize pinBit c.otyperA pin = y at hy ⊢
    interval_cases pin <;> interval_cases y <;> decide
  · show pinField ((c.pupdrA &&& 0xFF0003FF) ||| 0x00AA0000) pin = _
    rw [pinField_mask_set]
    have hy := pinField_lt c.pupdrA pin
    generalize pinField c.pupdrA pin = y at hy ⊢
    interval_cases pin <;> interval_cases y <;> decide
  · show pinField ((c.moderB &&& 0xFFFF0000) ||| 0x00005555) pin = _
    rw [pinField_mask_set]
    have hy := pinField_lt c.moderB pin
    generalize pinField c.moderB pin = y at hy ⊢
    interval_cases pin <;> interval_cases y <;> decide
  · show pinBit (c.otyperB &&& 0xFFFFFF00) pin = _
    rw [pinBit_and]
    have hy := pinBit_lt c.otyperB pin
    generalize pinBit c.otyperB pin = y at hy ⊢
    interval_cases pin <;> interval_cases y <;> decide
  · show pinField (c.pupdrB &&& 0xFFFF0000) pin = _
    rw [pinField_and]
    have hy := pinField_lt c.pupdrB pin
    generalize pinField c.pupdrB pin = y at hy ⊢
    interval_cases pin <;> interval_cases y <;> decide
  · show pinField ((c.moderC &&& 0xFFFF00FF) ||| 0x00005500) pin = _
    rw [pinField_mask_set]
    have hy := pinField_lt c.moderC pin
    generalize pinField c.moderC pin = y at hy ⊢
    interval_cases pin <;> interval_cases y <;> decide
  · show pinBit (c.otyperC &&& 0xFFFFFF0F) pin = _
    rw [pinBit_and]
    have hy := pinBit_lt c.otyperC pin
    generalize pinBit c.otyperC pin = y at hy ⊢
    interval_cases pin <;> interval_cases y <;> decide
  · show pinField (c.pupdrC &&& 0xFFFF00FF) pin = _
    rw [pinField_and]
    have hy := pinField_lt c.pupdrC pin
    generalize pinField c.pupdrC pin = y at hy ⊢
    interval_cases pin <;> interval_cases y <;> decide
  · show pinField (c.moderA &&& 0xFF00FFFF) pin = _
    rw [pinField_and]
    have hy := pinField_lt c.moderA pin
    generalize pinField c.moderA pin = y at hy ⊢
    interval_cases pin <;> interval_cases y <;> decide
  · show pinField ((c.pupdrA &&& 0xFF00FFFF) ||| 0x00AA0000) pin = _
    rw [pinField_mask_set]
    have hy := pinField_lt c.pupdrA pin
    generalize pinField c.pupdrA pin = y at hy ⊢
    interval_cases pin <;> interval_cases y <;> decide

/-- Instance of C14: pin 6 from registers with all 32 bits high. -/
theorem C14_gpio_configuration_witness :
    (pinField (gpioInit_lcd GpioConfig.allHigh).moderC 6 =
        if 4 ≤ 6 ∧ 6 ≤ 7 then 1 else pinField GpioConfig.allHigh.moderC 6) ∧
    (pinBit (gpioInit_lcd GpioConfig.allHigh).otyperC 6 =
        if 4 ≤ 6 ∧ 6 ≤ 7 then 0 else pinBit GpioConfig.allHigh.otyperC 6) ∧
    (pinField (gpioInit_lcd GpioConfig.allHigh).pupdrC 6 =
        if 4 ≤ 6 ∧ 6 ≤ 7 then 0 else pinField GpioConfig.allHigh.pupdrC 6) ∧
    (pinField (gpioInit_lcd GpioConfig.allHigh).moderA 6 =
        if 5 ≤ 6 ∧ 6 ≤ 7 then 1 else if 8 ≤ 6 ∧ 6 ≤ 11 then 0
        else pinField GpioConfig.allHigh.moderA 6) ∧
    (pinBit (gpioInit_lcd GpioConfig.allHigh).otyperA 6 =
        if 5 ≤ 6 ∧ 6 ≤ 11 then 0 else pinBit GpioConfig.allHigh.otyperA 6) ∧
    (pinField (gpioInit_lcd GpioConfig.allHigh).pupdrA 6 =
        if 5 ≤ 6 ∧ 6 ≤ 7 then 0 else if 8 ≤ 6 ∧ 6 ≤ 11 then 2
        else pinField GpioConfig.allHigh.pupdrA 6) ∧
    (pinField (gpioInit_lcd GpioConfig.allHigh).moderB 6 =
        if 6 ≤ 7 then 1 else pinField GpioConfig.allHigh.moderB 6) ∧
    (pinBit (gpioInit_lcd GpioConfig.allHigh).otyperB 6 =
        if 6 ≤ 7 then 0 else pinBit GpioConfig.allHigh.otyperB 6) ∧
    (pinField (gpioInit_lcd GpioConfig.allHigh).pupdrB 6 =
        if 6 ≤ 7 then 0 else pinField GpioConfig.allHigh.pupdrB 6) ∧
    (pinField (gpioInit_keil GpioConfig.allHigh).moderC 6 =
        if 4 ≤ 6 ∧ 6 ≤ 7 then 1 else pinField GpioConfig.allHigh.moderC 6) ∧
    (pinBit (gpioInit_keil GpioConfig.allHigh).otyperC 6 =
        if 4 ≤ 6 ∧ 6 ≤ 7 then 0 else pinBit GpioConfig.allHigh.otyperC 6) ∧
    (pinField (gpioInit_keil GpioConfig.allHigh).pupdrC 6 =
        if 4 ≤ 6 ∧ 6 ≤ 7 then 0 else pinField GpioConfig.allHigh.pupdrC 6) ∧
    (pinField (gpioInit_keil GpioConfig.allHigh).moderA 6 =
        if 8 ≤ 6 ∧ 6 ≤ 11 then 0 else pinField GpioConfig.allHigh.moderA 6) ∧
    (pinField (gpioInit_keil GpioConfig.allHigh).pupdrA 6 =
        if 8 ≤ 6 ∧ 6 ≤ 11 then 2 else pinField GpioConfig.allHigh.pupdrA 6) ∧
    (gpioInit_keil GpioConfig.allHigh).otyperA = GpioConfig.allHigh.otyperA ∧
    (gpioInit_keil GpioConfig.allHigh).moderB = GpioConfig.allHigh.moderB ∧
    (gpioInit_keil GpioConfig.allHigh).otyperB = GpioConfig.allHigh.otyperB ∧
    (gpioInit_keil GpioConfig.allHigh).pupdrB = GpioConfig.allHigh.pupdrB :=
  C14_gpio_configuration GpioConfig.allHigh 6 (by decide)

/-! ## Invariants of runs -/

theorem keypad_at_lt {r c : Nat} {ch : Char} (h : keypad_at r c = some ch) : r < 4 ∧ c < 4 := by
  unfold keypad_at at h
  by_cases hr : r < 4
  · refine ⟨hr, ?_⟩
    by_contra hc
    interval_cases r <;>
      simp only [keypad_map, List.getElem?_cons_zero, List.getElem?_cons_succ] at h <;>
      (rw [List.getElem?_eq_none (by simp; omega)] at h; cases h)
  · rw [List.getElem?_eq_none (by simp [keypad_map]; omega)] at h
    cases h

/-- The table read of step 3f fails exactly when an index is out of bounds. -/
theorem outputKey_none_iff (v : Variant) (s : State) :
    outputKey v s = none ↔ ¬ (s.row_index < 4 ∧ s.col_index < 4) := by
  constructor
  · intro h hb
    obtain ⟨ch, hch⟩ := keypad_at_isSome hb.1 hb.2
    cases v <;> simp [outputKey, hch] at h
  · intro hb
    cases hk : keypad_at s.row_index s.col_index with
    | none => simp [outputKey, hk]
    | some ch => exact absurd (keypad_at_lt hk) hb

/-- A defined `finishCycle` meets its specification. -/
theorem finishCycle_some (v : Variant) (t s1 : State) (out : List Event)
    (h : finishCycle v t = some (s1, out)) :
    ∃ ch, FinishSpec v t s1 out ch := by
  have hb : (encodeKey t).row_index < 4 ∧ (encodeKey t).col_index < 4 := by
    by_contra hb
    have := (outputKey_none_iff v (encodeKey t)).mpr hb
    simp [finishCycle, this] at h
  rw [(encodeKey_frame t).1] at hb
  obtain ⟨s2, out2, ch, hf, hfs⟩ := finishCycle_spec v t hb.1 hb.2
  rw [h] at hf
  simp only [Option.some.injEq, Prod.mk.injEq] at hf
  obtain ⟨rfl, rfl⟩ := hf
  exact ⟨ch, hfs⟩

theorem driveColumn_quiet (s : State) :
    (driveColumn s).2.filter Event.isOutput = [] ∧ s.sameOutputs (driveColumn s).1 ∧
    (driveColumn s).1.g_last_keycode = s.g_last_keycode := by
  unfold driveColumn
  split_ifs <;> exact ⟨rfl, ⟨rfl, rfl, rfl, rfl, rfl, rfl, rfl⟩, rfl⟩

/-- Every step either produces no output event and leaves the output variables,
or is the last read of a sweep followed by steps 3e and 3f on a state `t` that
differs from `s` in `rowval` and in `col_index` or `j` only. -/
theorem step_cases (v : Variant) (s s1 : State) (x : Nat) (evs : List Event)
    (h : step v s x = some (s1, evs)) :
    (evs.filter Event.isOutput = [] ∧ s.sameOutputs s1) ∨
    (s.pc = PC.scan ∧ ∃ t out, finishCycle v t = some (s1, out) ∧
      evs = sampleEvent s x :: out ∧
      (t = { s with rowval := readRows x, col_index := s.j } ∧ readRows x ≠ 0 ∨
       t = { s with rowval := readRows x, j := (s.j + 1) % 256 } ∧ readRows x = 0)) := by
  have hpcs : s.pc = PC.waitRelease ∨ s.pc = PC.waitPress ∨ s.pc = PC.debounce ∨
      s.pc = PC.scan := by
    cases s.pc <;> simp
  rcases hpcs with hpc | hpc | hpc | hpc
  · left
    by_cases hx : readRows x = 0
    · rw [step_waitRelease_zero v s x hpc hx] at h
      simp only [Option.some.injEq, Prod.mk.injEq] at h
      obtain ⟨rfl, rfl⟩ := h
      exact ⟨rfl, rfl, rfl, rfl, rfl, rfl, rfl, rfl⟩
    · rw [step_waitRelease_held v s x hpc hx] at h
      simp only [Option.some.injEq, Prod.mk.injEq] at h
      obtain ⟨rfl, rfl⟩ := h
      exact ⟨rfl, rfl, rfl, rfl, rfl, rfl, rfl, rfl⟩
  · left
    by_cases hx : readRows x = 0
    · rw [step_waitPress_zero v s x hpc hx] at h
      simp only [Option.some.injEq, Prod.mk.injEq] at h
      obtain ⟨rfl, rfl⟩ := h
      exact ⟨rfl, rfl, rfl, rfl, rfl, rfl, rfl, rfl⟩
    · rw [step_waitPress_nonzero v s x hpc hx] at h
      simp only [Option.some.injEq, Prod.mk.injEq] at h
      obtain ⟨rfl, rfl⟩ := h
      exact ⟨rfl, rfl, rfl, rfl, rfl, rfl, rfl, rfl⟩
  · left
    by_cases hx : readRows x = 0
    · rw [step_debounce_zero v s x hpc hx] at h
      simp only [Option.some.injEq, Prod.mk.injEq] at h
      obtain ⟨rfl, rfl⟩ := h
      exact ⟨rfl, rfl, rfl, rfl, rfl, rfl, rfl, rfl⟩
    · rw [step_debounce_nonzero v s x hpc hx] at h
      simp only [Option.some.injEq, Prod.mk.injEq] at h
      obtain ⟨rfl, rfl⟩ := h
      exact ⟨rfl, rfl, rfl, rfl, rfl, rfl, rfl, rfl⟩
  · by_cases hx : readRows x = 0
    · by_cases hj : (s.j + 1) % 256 < 4
      · left
        obtain ⟨hq, hsame, -⟩ :=
          driveColumn_quiet { s with rowval := readRows x, j := (s.j + 1) % 256 }
        have hstep : step v s x = some
            ((driveColumn { s with rowval := readRows x, j := (s.j + 1) % 256 }).1,
             sampleEvent s x ::
               (driveColumn { s with rowval := readRows x, j := (s.j + 1) % 256 }).2) := by
          unfold step
          rw [hpc]
          simp only [hx, ne_eq, not_true_eq_false, if_false, hj, if_true]
        rw [hstep] at h
        simp only [Option.some.injEq, Prod.mk.injEq] at h
        obtain ⟨rfl, rfl⟩ := h
        refine ⟨?_, hsame⟩
        rw [List.filter_cons_of_neg (by simp [sampleEvent, Event.isOutput])]
        exact hq
      · right
        refine ⟨hpc, { s with rowval := readRows x, j := (s.j + 1) % 256 }, ?_⟩
        have hstep : step v s x =
            (finishCycle v { s with rowval := readRows x, j := (s.j + 1) % 256 }).map
              (fun r => (r.1, sampleEvent s x :: r.2)) := by
          unfold step
          rw [hpc]
          simp only [hx, ne_eq, not_true_eq_false, if_false, hj]
          generalize finishCycle v _ = fc
          cases fc <;> rfl
        rw [hstep] at h
        cases hf : finishCycle v { s with rowval := readRows x, j := (s.j + 1) % 256 } with
        | none => simp [hf] at h
        | some r =>
          simp only [hf, Option.map_some', Option.some.injEq, Prod.mk.injEq] at h
          obtain ⟨rfl, rfl⟩ := h
          exact ⟨r.2, rfl, rfl, Or.inr ⟨rfl, hx⟩⟩
    · right
      refine ⟨hpc, { s with rowval := readRows x, col_index := s.j }, ?_⟩
      rw [step_scan_found v s x hpc hx] at h
      cases hf : finishCycle v { s with rowval := readRows x, col_index := s.j } with
      | none => simp [hf] at h
      | some r =>
        simp only [hf, Option.map_some', Option.some.injEq, Prod.mk.injEq] at h
        obtain ⟨rfl, rfl⟩ := h
        exact ⟨r.2, rfl, rfl, Or.inl ⟨rfl, hx⟩⟩

/-- Induction over a run from a state that satisfies the loop invariant: a
property of the state and the trace so far that every step preserves holds at
the end of the run. -/
theorem run_preserves (v : Variant) (P : State → List Event → Prop)
    (hstep : ∀ (s s1 : State) (acc evs : List Event) (x : Nat), s.InBounds → P s acc →
      step v s x = some (s1, evs) → P s1 (acc ++ evs)) :
    ∀ (xs : List Nat) (s s1 : State) (acc tr : List Event), s.InBounds →
      (s.pc ≠ PC.scan → s.odrC &&& 0xF0 = 0xF0) → P s acc →
      run v s xs = some (s1, tr) → P s1 (acc ++ tr) := by
  intro xs
  induction xs with
  | nil =>
    intro s s1 acc tr _ _ hP hrun
    simp only [run, Option.some.injEq, Prod.mk.injEq] at hrun
    obtain ⟨rfl, rfl⟩ := hrun
    rw [List.append_nil]; exact hP
  | cons x xs ih =>
    intro s s1 acc tr hb hc hP hrun
    obtain ⟨s2, evs, hs, hb2, hc2, -⟩ := step_invariant v s x hb hc
    rw [run_cons_of_step v s s2 x xs evs hs] at hrun
    cases hr : run v s2 xs with
    | none => simp [hr] at hrun
    | some r =>
      simp only [hr, Option.map_some', Option.some.injEq, Prod.mk.injEq] at hrun
      obtain ⟨rfl, rfl⟩ := hrun
      rw [← List.append_assoc]
      exact ih s2 r.1 (acc ++ evs) r.2 hb2 hc2 (hstep s s2 acc evs x hb hP hs) hr

/-- The scan loop from its entry is defined over every stream, and a property
that holds at entry and is preserved by every step holds at the end. -/
theorem runLoop_preserves (v : Variant) (P : State → List Event → Prop)
    (j rowval : Nat) (key_char : Char) (odrA odrB odrC : Nat) (idrs : List Nat)
    (h0 : P (enterJump (initState j rowval key_char odrA odrB odrC)).1
      [Event.bsrrC 0x000000F0])
    (hstep : ∀ (s s1 : State) (acc evs : List Event) (x : Nat), s.InBounds → P s acc →
      step v s x = some (s1, evs) → P s1 (acc ++ evs)) :
    ∃ s1 tr, runLoop v (initState j rowval key_char odrA odrB odrC) idrs = some (s1, tr) ∧
      s1.InBounds ∧ P s1 tr := by
  obtain ⟨s1, tr, hrun, hb, -, -⟩ :=
    run_invariant v (enterJump (initState j rowval key_char odrA odrB odrC)).1 idrs
      (initState_inBounds j rowval key_char odrA odrB odrC) (fun _ => cols_release _)
  refine ⟨s1, Event.bsrrC 0x000000F0 :: tr, ?_, hb, ?_⟩
  · simp only [runLoop, hrun]; rfl
  · exact run_preserves v P hstep idrs _ s1 [Event.bsrrC 0x000000F0] tr
      (initState_inBounds j rowval key_char odrA odrB odrC) (fun _ => cols_release _) h0 hrun

theorem key_not_mem_of_quiet {evs : List Event} (hq : evs.filter Event.isOutput = [])
    (r c : Nat) (ch : Char) : Event.key r c ch ∉ evs := by
  intro hmem
  have : Event.key r c ch ∈ evs.filter Event.isOutput := List.mem_filter.mpr ⟨hmem, rfl⟩
  rw [hq] at this
  cases this

/-- Claim C16. Over every stream of row reads, zero and multi-bit masks included,
the loop never reads the table out of bounds: the run is defined (the model's
only failure is a table read with `row_index` or `col_index` outside 0..3), every
table read recorded in the trace was made at indexes in 0..3, and both indexes
are in 0..3 at every read of the input. -/
theorem C16_table_access_in_bounds (v : Variant) (j rowval : Nat) (key_char : Char)
    (odrA odrB odrC : Nat) (idrs : List Nat) :
    (∀ s : State, outputKey v s = none ↔ ¬ (s.row_index < 4 ∧ s.col_index < 4)) ∧
    ∃ s1 tr, runLoop v (initState j rowval key_char odrA odrB odrC) idrs = some (s1, tr) ∧
      s1.row_index < 4 ∧ s1.col_index < 4 ∧
      ∀ r c ch, Event.key r c ch ∈ tr → r < 4 ∧ c < 4 ∧ keypad_at r c = some ch := by
  refine ⟨outputKey_none_iff v, ?_⟩
  obtain ⟨s1, tr, hrun, hb, hP⟩ :=
    runLoop_preserves v
      (fun _ acc => ∀ r c ch, Event.key r c ch ∈ acc → r < 4 ∧ c < 4 ∧ keypad_at r c = some ch)
      j rowval key_char odrA odrB odrC idrs
      (by intro r c ch hmem
          simp only [List.mem_singleton] at hmem
          cases hmem)
      (by intro s s1 acc evs x _ hP hs r c ch hmem
          rcases List.mem_append.mp hmem with hm | hm
          · exact hP r c ch hm
          · rcases step_cases v s s1 x evs hs with ⟨hq, -⟩ | ⟨-, t, out, hf, rfl, -⟩
            · exact absurd hm (key_not_mem_of_quiet hq r c ch)
            · obtain ⟨ch1, hfs⟩ := finishCycle_some v t s1 out hf
              have hm2 : Event.key r c ch ∈ out := by
                rcases List.mem_cons.mp hm with h | h
                · cases h
                · exact h
              have hm3 : Event.key r c ch ∈ out.filter Event.isKey :=
                List.mem_filter.mpr ⟨hm2, rfl⟩
              rw [hfs.keys, List.mem_singleton] at hm3
              cases hm3
              exact ⟨(keypad_at_lt hfs.lookup).1, (keypad_at_lt hfs.lookup).2, hfs.lookup⟩)
  exact ⟨s1, tr, hrun, hb.1, hb.2.1, hP⟩

/-! ## Output of a key -/

theorem filter_nil_of_quiet {evs : List Event} (p : Event → Bool)
    (hp : ∀ e, p e = true → e.isOutput = true) (hq : evs.filter Event.isOutput = []) :
    evs.filter p = [] := by
  rw [List.filter_eq_nil_iff] at hq ⊢
  intro e he hpe
  exact hq e he (hp e hpe)

/-- The display calls of step 3f, for a defined table read. -/
theorem outputKey_lcd_calls (s s1 : State) (evs : List Event)
    (h : outputKey Variant.lcd s = some (s1, evs)) :
    ∃ ch, keypad_at s.row_index s.col_index = some ch ∧ s1.key_char = ch ∧
      evs = Event.key s.row_index s.col_index ch ::
        ((LCD_cmd { s with key_char := ch } 0xC0).2 ++
          ((LCD_disp (LCD_cmd { s with key_char := ch } 0xC0).1 ch.toNat).2 ++
            (LCD_disp (LCD_disp (LCD_cmd { s with key_char := ch } 0xC0).1 ch.toNat).1
              0x20).2)) ∧
      evs.filter (fun e => e.isKey || e.isLcdCall) =
        [Event.key s.row_index s.col_index ch, Event.lcd_cmd 0xC0, Event.lcd_disp ch.toNat,
         Event.lcd_disp 0x20] := by
  cases hk : keypad_at s.row_index s.col_index with
  | none => simp [outputKey, hk] at h
  | some ch =>
    simp only [outputKey, hk, Option.some.injEq, Prod.mk.injEq] at h
    obtain ⟨rfl, rfl⟩ := h
    refine ⟨ch, rfl, rfl, by simp, ?_⟩
    simp [LCD_cmd, LCD_disp, Event.isKey, Event.isLcdCall]

theorem finishCycle_lcd_calls (t s1 : State) (out : List Event)
    (h : finishCycle Variant.lcd t = some (s1, out)) :
    ∃ r c ch, out.filter Event.isKey = [Event.key r c ch] ∧
      out.filter (fun e => e.isKey || e.isLcdCall) =
        [Event.key r c ch, Event.lcd_cmd 0xC0, Event.lcd_disp ch.toNat, Event.lcd_disp 0x20] := by
  obtain ⟨ch, hfs⟩ := finishCycle_some Variant.lcd t s1 out h
  cases ho : outputKey Variant.lcd (encodeKey t) with
  | none => simp [finishCycle, ho] at h
  | some r =>
    obtain ⟨s2, evs⟩ := r
    simp only [finishCycle, ho, Option.some.injEq, Prod.mk.injEq] at h
    obtain ⟨-, rfl⟩ := h
    obtain ⟨ch2, hk2, -, -, hcalls⟩ := outputKey_lcd_calls (encodeKey t) s2 evs ho
    refine ⟨(encodeKey t).row_index, (encodeKey t).col_index, ch2, ?_, ?_⟩
    · have := hfs.keys
      have hch : ch2 = ch := by
        rw [(encodeKey_frame t).1, hfs.lookup] at hk2
        exact (Option.some.inj hk2).symm
      rw [this, hch, (encodeKey_frame t).1]
    · rw [List.filter_append, hcalls]
      simp [enterJump, writeBSRR, Event.isKey, Event.isLcdCall]

/-- Claim C12. In the display variant, step 3f with symbol `ch` makes exactly the
display calls `LCD_cmd(0xC0)` (cursor to the start of line 2), `LCD_disp(ch)`,
`LCD_disp(' ')` (0x20), in this order and nothing else; and over every stream of
row reads the display calls of the loop are exactly these three calls after each
key event, so each event writes the decoded symbol and a trailing blank at the
same cursor position. -/
theorem C12_display_sequence (j rowval : Nat) (key_char : Char) (odrA odrB odrC : Nat)
    (idrs : List Nat) :
    (∀ (s s1 : State) (evs : List Event), outputKey Variant.lcd s = some (s1, evs) →
      ∃ ch, keypad_at s.row_index s.col_index = some ch ∧ s1.key_char = ch ∧
        evs = Event.key s.row_index s.col_index ch ::
          ((LCD_cmd { s with key_char := ch } 0xC0).2 ++
            ((LCD_disp (LCD_cmd { s with key_char := ch } 0xC0).1 ch.toNat).2 ++
              (LCD_disp (LCD_disp (LCD_cmd { s with key_char := ch } 0xC0).1 ch.toNat).1
                0x20).2)) ∧
        evs.filter (fun e => e.isKey || e.isLcdCall) =
          [Event.key s.row_index s.col_index ch, Event.lcd_cmd 0xC0,
           Event.lcd_disp ch.toNat, Event.lcd_disp 0x20]) ∧
    (' ').toNat = 0x20 ∧
    ∃ s1 tr, runLoop Variant.lcd (initState j rowval key_char odrA odrB odrC) idrs =
        some (s1, tr) ∧
      tr.filter (fun e => e.isKey || e.isLcdCall) =
        (tr.filter Event.isKey).flatMap (fun e => e :: keyDisplay e) := by
  refine ⟨outputKey_lcd_calls, rfl, ?_⟩
  obtain ⟨s1, tr, hrun, -, hP⟩ :=
    runLoop_preserves Variant.lcd
      (fun _ acc => acc.filter (fun e => e.isKey || e.isLcdCall) =
        (acc.filter Event.isKey).flatMap (fun e => e :: keyDisplay e))
      j rowval key_char odrA odrB odrC idrs rfl
      (by intro s s1 acc evs x _ hP hs
          simp only [List.filter_append, List.flatMap_append, hP]
          congr 1
          rcases step_cases Variant.lcd s s1 x evs hs with ⟨hq, -⟩ | ⟨-, t, out, hf, rfl, -⟩
          · rw [filter_nil_of_quiet _ (by intro e he; cases e <;> first | rfl | cases he) hq,
              filter_nil_of_quiet _ (by intro e he; cases e <;> first | rfl | cases he) hq]
            rfl
          · obtain ⟨r, c, ch, hk, hcalls⟩ := finishCycle_lcd_calls t s1 out hf
            rw [List.filter_cons_of_neg (by simp [sampleEvent, Event.isKey, Event.isLcdCall]),
              List.filter_cons_of_neg (by simp [sampleEvent, Event.isKey]), hk, hcalls]
            rfl)
  exact ⟨s1, tr, hrun, hP⟩

/-- The events of steps 3e, 3f and the jump in the Keil variant. -/
theorem finishCycle_keil_events (t s1 : State) (out : List Event)
    (h : finishCycle Variant.keil t = some (s1, out)) :
    ∃ ch, keypad_at s1.row_index s1.col_index = some ch ∧
      out = [Event.keycode s1.g_last_keycode, Event.key s1.row_index s1.col_index ch,
        Event.bsrrC 0x000000F0] ∧
      s1.g_pressed_key = ch ∧ s1.g_last_keycode = 4 * s1.row_index + s1.col_index ∧
      s1.g_last_keycode < 16 := by
  obtain ⟨ch, hfs⟩ := finishCycle_some Variant.keil t s1 out h
  have hlook := hfs.lookup
  have hlt := keypad_at_lt hlook
  rw [← (encodeKey_frame t).1] at hlook
  simp only [finishCycle, outputKey, hlook, Option.some.injEq, Prod.mk.injEq] at h
  obtain ⟨rfl, rfl⟩ := h
  have hcode : ((encodeKey t).row_index * 4 + (encodeKey t).col_index) % 256 =
      4 * (encodeKey t).row_index + (encodeKey t).col_index := by
    rw [(encodeKey_frame t).1]; omega
  refine ⟨ch, hlook, ?_, rfl, hcode, ?_⟩
  · simp [enterJump, writeBSRR]
  · show ((encodeKey t).row_index * 4 + (encodeKey t).col_index) % 256 < 16
    rw [(encodeKey_frame t).1]; omega

theorem keypad_at_row_major {r c : Nat} {ch : Char} (h : keypad_at r c = some ch) :
    "123A456B789C*0#D".toList[4 * r + c]? = some ch := by
  obtain ⟨hr, hc⟩ := keypad_at_lt h
  rw [← h]
  interval_cases r <;> interval_cases c <;> rfl

/-- Claim C17. In the Keil variant the watch variables start as `0xFF` and
the NUL character, and over every stream of row reads, at every read after a store (a key
event), they agree: `g_last_keycode = 4 * row_index + col_index` with no 8-bit
wrap-around, its value is in 0..15, and `g_pressed_key` is entry number
`g_last_keycode` of the key map read in row-major order; before any store they
still hold the initial values.  Every value stored in `g_last_keycode` is below 16. -/
theorem C17_watch_variables_agree (j rowval : Nat) (key_char : Char) (odrA odrB odrC : Nat)
    (idrs : List Nat) :
    (initState j rowval key_char odrA odrB odrC).g_last_keycode = 0xFF ∧
    (initState j rowval key_char odrA odrB odrC).g_pressed_key = Char.ofNat 0 ∧
    ∃ s1 tr, runLoop Variant.keil (initState j rowval key_char odrA odrB odrC) idrs =
        some (s1, tr) ∧
      ((tr.filter Event.isKey = [] ∧ s1.g_last_keycode = 0xFF ∧
          s1.g_pressed_key = Char.ofNat 0) ∨
       (tr.filter Event.isKey ≠ [] ∧ s1.g_last_keycode = 4 * s1.row_index + s1.col_index ∧
          s1.g_last_keycode < 16 ∧
          "123A456B789C*0#D".toList[s1.g_last_keycode]? = some s1.g_pressed_key)) ∧
      ∀ n, Event.keycode n ∈ tr → n < 16 := by
  refine ⟨rfl, rfl, ?_⟩
  obtain ⟨s1, tr, hrun, -, hP⟩ :=
    runLoop_preserves Variant.keil
      (fun s acc =>
        ((acc.filter Event.isKey = [] ∧ s.g_last_keycode = 0xFF ∧
            s.g_pressed_key = Char.ofNat 0) ∨
         (acc.filter Event.isKey ≠ [] ∧ s.g_last_keycode = 4 * s.row_index + s.col_index ∧
            s.g_last_keycode < 16 ∧
            "123A456B789C*0#D".toList[s.g_last_keycode]? = some s.g_pressed_key)) ∧
        ∀ n, Event.keycode n ∈ acc → n < 16)
      j rowval key_char odrA odrB odrC idrs
      ⟨Or.inl ⟨rfl, rfl, rfl⟩, by
        intro n hn
        simp only [List.mem_singleton] at hn
        cases hn⟩
      (by intro s s1 acc evs x _ hP hs
          obtain ⟨hP1, hP2⟩ := hP
          rcases step_cases Variant.keil s s1 x evs hs with ⟨hq, hsame⟩ | ⟨-, t, out, hf, rfl, -⟩
          · obtain ⟨h1, h2, -, h4, h5, -, -⟩ := hsame
            have hk : evs.filter Event.isKey = [] :=
              filter_nil_of_quiet _ (by intro e he; cases e <;> first | rfl | cases he) hq
            refine ⟨?_, ?_⟩
            · rw [List.filter_append, hk, List.append_nil, h1, h2, h4, h5]
              exact hP1
            · intro n hn
              rcases List.mem_append.mp hn with hm | hm
              · exact hP2 n hm
              · have : Event.keycode n ∈ evs.filter Event.isOutput :=
                  List.mem_filter.mpr ⟨hm, rfl⟩
                rw [hq] at this
                cases this
          · obtain ⟨ch, hlook, rfl, hkey, hcode, hlt⟩ := finishCycle_keil_events t s1 out hf
            refine ⟨Or.inr ⟨?_, hcode, hlt, ?_⟩, ?_⟩
            · simp [List.filter_append, sampleEvent, Event.isKey]
            · rw [hcode, hkey]; exact keypad_at_row_major hlook
            · intro n hn
              rcases List.mem_append.mp hn with hm | hm
              · exact hP2 n hm
              · simp only [sampleEvent, List.mem_cons, List.mem_singleton, List.not_mem_nil,
                  or_false, Event.keycode.injEq] at hm
                rcases hm with h | h | h | h
                · cases h
                · rw [h]; exact hlt
                · cases h
                · cases h)
  exact ⟨s1, tr, hrun, hP.1, hP.2⟩

theorem encodeKey_row_eq (u : State) :
    (encodeKey u).row_index =
      if u.rowval = 0x0100 then 0 else if u.rowval = 0x0200 then 1
      else if u.rowval = 0x0400 then 2 else if u.rowval = 0x0800 then 3 else u.row_index := by
  unfold encodeKey
  split_ifs <;> rfl

/-- Claim C18. Every confirmed press (two consecutive non-zero reads `a`, `b` in
wait-for-press) is followed by exactly one key output before the loop is back in
wait-for-release, both when a column `zs.length` reads non-zero (`x`, after the
zero reads `zs`) and when all four columns read zero (`z0`..`z3`).  `col_index`
is assigned only when some column reads non-zero (it becomes that column) and
`row_index` only when the decoded mask is exactly `0x0100`, `0x0200`, `0x0400` or
`0x0800`; otherwise each keeps the value left by the previous cycle, which is 0
before the first cycle; and the key output is the table entry at the resulting
indexes. -/
theorem C18_one_output_per_press (v : Variant) (s : State) (a b x z0 z1 z2 z3 : Nat)
    (zs : List Nat) (j rowval : Nat) (key_char : Char) (odrA odrB odrC : Nat)
    (hpc : s.pc = PC.waitPress) (ha : readRows a ≠ 0) (hb : readRows b ≠ 0)
    (hrow : s.row_index < 4) (hcol : s.col_index < 4)
    (hlen : zs.length < 4) (hz : ∀ z ∈ zs, readRows z = 0) (hx : readRows x ≠ 0)
    (h0 : readRows z0 = 0) (h1 : readRows z1 = 0) (h2 : readRows z2 = 0)
    (h3 : readRows z3 = 0) :
    (∃ s1 tr ch, run v s (a :: b :: (zs ++ [x])) = some (s1, tr) ∧
      s1.pc = PC.waitRelease ∧ s1.col_index = zs.length ∧
      s1.row_index =
        (if readRows x = 0x0100 then 0 else if readRows x = 0x0200 then 1
         else if readRows x = 0x0400 then 2 else if readRows x = 0x0800 then 3
         else s.row_index) ∧
      keypad_at s1.row_index s1.col_index = some ch ∧
      tr.filter Event.isKey = [Event.key s1.row_index s1.col_index ch]) ∧
    (∃ s1 tr ch, run v s [a, b, z0, z1, z2, z3] = some (s1, tr) ∧
      s1.pc = PC.waitRelease ∧ s1.col_index = s.col_index ∧ s1.row_index = s.row_index ∧
      keypad_at s1.row_index s1.col_index = some ch ∧
      tr.filter Event.isKey = [Event.key s1.row_index s1.col_index ch]) ∧
    (initState j rowval key_char odrA odrB odrC).row_index = 0 ∧
    (initState j rowval key_char odrA odrB odrC).col_index = 0 := by
  have hstep := step_waitPress_nonzero v s a hpc ha
  refine ⟨?_, ?_, rfl, rfl⟩
  · obtain ⟨t, s1, out, ch, hrun, hfs, ht1, ht2, -, ht4, -⟩ :=
      cycle_found v { s with rowval := readRows a, pc := PC.debounce } b x zs rfl hb hlen hz hx
        (encodeKey_row_lt _ hrow)
    simp only at ht4
    have hr : s1.row_index =
        (if readRows x = 0x0100 then 0 else if readRows x = 0x0200 then 1
         else if readRows x = 0x0400 then 2 else if readRows x = 0x0800 then 3
         else s.row_index) := by
      rw [hfs.row_eq, encodeKey_row_eq, ht1, ht4]
    have hc : s1.col_index = zs.length := by rw [hfs.col_eq, ht2]
    rw [run_cons_of_step v s _ a _ _ hstep, hrun]
    refine ⟨s1, _, ch, rfl, hfs.pc_eq, hc, hr, ?_, ?_⟩
    · rw [hfs.row_eq, hfs.col_eq]; exact hfs.lookup
    · simp [sampleEvent, Event.isKey, sweepEvents_no_key, hfs.keys, hfs.row_eq, hfs.col_eq]
  · obtain ⟨t, s1, out, ch, hrun, hfs, -, ht2, ht3, henc⟩ :=
      cycle_none v { s with rowval := readRows a, pc := PC.debounce } b z0 z1 z2 z3 rfl hb
        h0 h1 h2 h3 hrow hcol
    simp only at ht2 ht3
    have hr : s1.row_index = s.row_index := by rw [hfs.row_eq, henc, ht3]
    have hc : s1.col_index = s.col_index := by rw [hfs.col_eq, ht2]
    rw [run_cons_of_step v s _ a _ _ hstep, hrun]
    refine ⟨s1, _, ch, rfl, hfs.pc_eq, hc, hr, ?_, ?_⟩
    · rw [hfs.row_eq, hfs.col_eq]; exact hfs.lookup
    · simp [sampleEvent, Event.isKey, sweepEvents, hfs.keys, hfs.row_eq, hfs.col_eq]

/-- Instance of C18: a cycle entered with indexes (2, 3) left by an earlier one;
column 1 reads the two-bit mask `0x0300`, so `row_index` stays 2. -/
theorem C18_one_output_per_press_witness :
    (∃ s1 tr ch,
      run Variant.keil
        { initState 0 0 (Char.ofNat 0) 0 0 0 with pc := PC.waitPress, row_index := 2, col_index := 3 }
        (0x0100 :: 0x0100 :: ([0] ++ [0x0300])) = some (s1, tr) ∧
      s1.pc = PC.waitRelease ∧ s1.col_index = [0].length ∧
      s1.row_index =
        (if readRows 0x0300 = 0x0100 then 0 else if readRows 0x0300 = 0x0200 then 1
         else if readRows 0x0300 = 0x0400 then 2 else if readRows 0x0300 = 0x0800 then 3
         else 2) ∧
      keypad_at s1.row_index s1.col_index = some ch ∧
      tr.filter Event.isKey = [Event.key s1.row_index s1.col_index ch]) ∧
    (∃ s1 tr ch,
      run Variant.keil
        { initState 0 0 (Char.ofNat 0) 0 0 0 with pc := PC.waitPress, row_index := 2, col_index := 3 }
        [0x0100, 0x0100, 0, 0, 0, 0] = some (s1, tr) ∧
      s1.pc = PC.waitRelease ∧ s1.col_index = 3 ∧ s1.row_index = 2 ∧
      keypad_at s1.row_index s1.col_index = some ch ∧
      tr.filter Event.isKey = [Event.key s1.row_index s1.col_index ch]) ∧
    (initState 0 0 (Char.ofNat 0) 0 0 0).row_index = 0 ∧
    (initState 0 0 (Char.ofNat 0) 0 0 0).col_index = 0 :=
  C18_one_output_per_press Variant.keil
    { initState 0 0 (Char.ofNat 0) 0 0 0 with pc := PC.waitPress, row_index := 2, col_index := 3 }
    0x0100 0x0100 0x0300 0 0 0 0 [0] 0 0 (Char.ofNat 0) 0 0 0 rfl (by decide) (by decide)
    (by decide) (by decide) (by decide) (by decide) (by decide) (by decide) (by decide)
    (by decide) (by decide)

/-! ## The two variants -/

theorem control_eq_iff (s t : State) :
    s.control = t.control ↔ s.pc = t.pc ∧ s.j = t.j ∧ s.rowval = t.rowval ∧
      s.row_index = t.row_index ∧ s.col_index = t.col_index ∧ s.odrC = t.odrC := by
  simp [State.control]

/-- The scan events of steps 3e, 3f and the jump: the key result, then the
release-all write. -/
theorem finishCycle_scan (v : Variant) (t s1 : State) (out : List Event)
    (h : finishCycle v t = some (s1, out)) :
    ∃ ch, FinishSpec v t s1 out ch ∧
      out.filter Event.isScan =
        [Event.key (encodeKey t).row_index t.col_index ch, Event.bsrrC 0x000000F0] := by
  obtain ⟨ch, hfs⟩ := finishCycle_some v t s1 out h
  refine ⟨ch, hfs, ?_⟩
  have hlook := hfs.lookup
  rw [← (encodeKey_frame t).1] at hlook
  cases v
  · simp only [finishCycle, outputKey, hlook, Option.some.injEq, Prod.mk.injEq] at h
    obtain ⟨-, rfl⟩ := h
    simp [enterJump, writeBSRR, Event.isScan, Event.isKey, Event.isDrive, Event.isSample,
      (encodeKey_frame t).1]
  · simp only [finishCycle, outputKey, hlook, Option.some.injEq, Prod.mk.injEq] at h
    obtain ⟨-, rfl⟩ := h
    simp [enterJump, writeBSRR, LCD_cmd, LCD_disp, Event.isScan, Event.isKey, Event.isDrive,
      Event.isSample, (encodeKey_frame t).1]

theorem encodeKey_control (t u : State) (h : t.control = u.control) :
    (encodeKey t).row_index = (encodeKey u).row_index := by
  obtain ⟨-, -, h3, h4, -, -⟩ := (control_eq_iff t u).mp h
  exact encodeKey_row_congr u t h3 h4

/-- Steps 3e, 3f and the jump look the same in both variants. -/
theorem finishCycle_control (v w : Variant) (t u : State) (h : t.control = u.control) :
    (finishCycle v t).map scanView = (finishCycle w u).map scanView := by
  obtain ⟨h1, h2, h3, h4, h5, h6⟩ := (control_eq_iff t u).mp h
  have henc := encodeKey_control t u h
  by_cases hb : (encodeKey t).row_index < 4 ∧ t.col_index < 4
  · obtain ⟨s1, out1, ch1, hf1, -⟩ := finishCycle_spec v t hb.1 hb.2
    obtain ⟨s2, out2, ch2, hf2, -⟩ := finishCycle_spec w u (by rw [← henc]; exact hb.1)
      (by rw [← h5]; exact hb.2)
    obtain ⟨c1, hs1, hv1⟩ := finishCycle_scan v t s1 out1 hf1
    obtain ⟨c2, hs2, hv2⟩ := finishCycle_scan w u s2 out2 hf2
    have hch : c1 = c2 := by
      have l1 := hs1.lookup
      have l2 := hs2.lookup
      rw [henc, h5, l2] at l1
      exact (Option.some.inj l1).symm
    rw [hf1, hf2]
    simp only [Option.map_some', scanView, Option.some.injEq, Prod.mk.injEq]
    refine ⟨?_, ?_⟩
    · rw [control_eq_iff]
      refine ⟨?_, ?_, ?_, ?_, ?_, ?_⟩
      · rw [hs1.pc_eq, hs2.pc_eq]
      · rw [hs1.j_eq, hs2.j_eq, h2]
      · rw [hs1.rowval_eq, hs2.rowval_eq, h3]
      · rw [hs1.row_eq, hs2.row_eq, henc]
      · rw [hs1.col_eq, hs2.col_eq, h5]
      · rw [hs1.odrC_eq, hs2.odrC_eq, h6]
    · rw [hv1, hv2, henc, h5, hch]
  · have hn1 : finishCycle v t = none := by
      have := (outputKey_none_iff v (encodeKey t)).mpr (by rw [(encodeKey_frame t).1]; exact hb)
      simp [finishCycle, this]
    have hn2 : finishCycle w u = none := by
      have := (outputKey_none_iff w (encodeKey u)).mpr
        (by rw [(encodeKey_frame u).1, ← henc, ← h5]; exact hb)
      simp [finishCycle, this]
    rw [hn1, hn2]

theorem driveColumn_control (t u : State) (h : t.control = u.control) :
    (driveColumn t).1.control = (driveColumn u).1.control ∧
    (driveColumn t).2 = (driveColumn u).2 := by
  obtain ⟨h1, h2, h3, h4, h5, h6⟩ := (control_eq_iff t u).mp h
  unfold driveColumn
  rw [h2]
  split_ifs <;> simp [writeBSRR, State.control, h1, h2, h3, h4, h5, h6]

/-- One step looks the same in both variants: from states with the same control
part, either both steps fail or both succeed with the same control part and the
same scan events. -/
theorem step_control (v w : Variant) (s t : State) (x : Nat) (h : s.control = t.control) :
    (step v s x).map scanView = (step w t x).map scanView := by
  obtain ⟨h1, h2, h3, h4, h5, h6⟩ := (control_eq_iff s t).mp h
  have hev : sampleEvent s x = sampleEvent t x := by simp [sampleEvent, h6]
  have hpcs : s.pc = PC.waitRelease ∨ s.pc = PC.waitPress ∨ s.pc = PC.debounce ∨
      s.pc = PC.scan := by
    cases s.pc <;> simp
  rcases hpcs with hpc | hpc | hpc | hpc
  · by_cases hx : readRows x = 0
    · rw [step_waitRelease_zero v s x hpc hx, step_waitRelease_zero w t x (h1 ▸ hpc) hx]
      simp [scanView, State.control, hev, h2, h3, h4, h5, h6]
    · rw [step_waitRelease_held v s x hpc hx, step_waitRelease_held w t x (h1 ▸ hpc) hx]
      simp [scanView, State.control, hev, h1, h2, h3, h4, h5, h6]
  · by_cases hx : readRows x = 0
    · rw [step_waitPress_zero v s x hpc hx, step_waitPress_zero w t x (h1 ▸ hpc) hx]
      simp [scanView, State.control, hev, h1, h2, h3, h4, h5, h6]
    · rw [step_waitPress_nonzero v s x hpc hx, step_waitPress_nonzero w t x (h1 ▸ hpc) hx]
      simp [scanView, State.control, hev, h2, h3, h4, h5, h6]
  · by_cases hx : readRows x = 0
    · rw [step_debounce_zero v s x hpc hx, step_debounce_zero w t x (h1 ▸ hpc) hx]
      simp [scanView, State.control, hev, h2, h3, h4, h5, h6]
    · rw [step_debounce_nonzero v s x hpc hx, step_debounce_nonzero w t x (h1 ▸ hpc) hx]
      simp [scanView, State.control, hev, h2, h3, h4, h5, h6]
  · have hpct : t.pc = PC.scan := h1 ▸ hpc
    by_cases hx : readRows x = 0
    · by_cases hj : (s.j + 1) % 256 < 4
      · have hs : ∀ (u : Variant) (r : State), r.pc = PC.scan → r.j = s.j →
            step u r x = some
              ((driveColumn { r with rowval := readRows x, j := (s.j + 1) % 256 }).1,
               sampleEvent r x ::
                 (driveColumn { r with rowval := readRows x, j := (s.j + 1) % 256 }).2) := by
          intro u r hr hrj
          unfold step
          rw [hr]
          simp only [hx, ne_eq, not_true_eq_false, if_false, hrj, hj, if_true]
        obtain ⟨hc, he⟩ := driveColumn_control
          { s with rowval := readRows x, j := (s.j + 1) % 256 }
          { t with rowval := readRows x, j := (s.j + 1) % 256 }
          (by simp [State.control, h1, h4, h5, h6])
        rw [hs v s hpc rfl, hs w t hpct h2.symm]
        simp only [Option.map_some', scanView, hc, he, hev]
      · have hs : ∀ (u : Variant) (r : State), r.pc = PC.scan → r.j = s.j →
            step u r x =
              (finishCycle u { r with rowval := readRows x, j := (s.j + 1) % 256 }).map
                (fun q => (q.1, sampleEvent r x :: q.2)) := by
          intro u r hr hrj
          unfold step
          rw [hr]
          simp only [hx, ne_eq, not_true_eq_false, if_false, hrj, hj]
          generalize finishCycle u _ = fc
          cases fc <;> rfl
        have hfc := finishCycle_control v w
          { s with rowval := readRows x, j := (s.j + 1) % 256 }
          { t with rowval := readRows x, j := (s.j + 1) % 256 }
          (by simp [State.control, h1, h4, h5, h6])
        rw [hs v s hpc rfl, hs w t hpct h2.symm]
        cases hA : finishCycle v { s with rowval := readRows x, j := (s.j + 1) % 256 } <;>
          cases hB : finishCycle w { t with rowval := readRows x, j := (s.j + 1) % 256 } <;>
          simp only [hA, hB, Option.map_some', Option.map_none', Option.some.injEq,
            scanView, Prod.mk.injEq, reduceCtorEq] at hfc ⊢
        · simp only [List.filter_cons_of_pos (show (sampleEvent t x).isScan = true from rfl),
            hev, hfc.1, hfc.2, and_self]
    · have hfc := finishCycle_control v w
        { s with rowval := readRows x, col_index := s.j }
        { t with rowval := readRows x, col_index := t.j }
        (by simp [State.control, h1, h2, h4, h6])
      rw [step_scan_found v s x hpc hx, step_scan_found w t x hpct hx]
      cases hA : finishCycle v { s with rowval := readRows x, col_index := s.j } <;>
        cases hB : finishCycle w { t with rowval := readRows x, col_index := t.j } <;>
        simp only [hA, hB, Option.map_some', Option.map_none', Option.some.injEq,
          scanView, Prod.mk.injEq, reduceCtorEq] at hfc ⊢
      · simp only [List.filter_cons_of_pos (show (sampleEvent t x).isScan = true from rfl),
          hev, hfc.1, hfc.2, and_self]

/-- A run looks the same in both variants. -/
theorem run_control (v w : Variant) (xs : List Nat) :
    ∀ s t : State, s.control = t.control →
      (run v s xs).map scanView = (run w t xs).map scanView := by
  induction xs with
  | nil =>
    intro s t h
    simp [run, scanView, h]
  | cons x xs ih =>
    intro s t h
    have hstep := step_control v w s t x h
    cases hA : step v s x with
    | none =>
      cases hB : step w t x with
      | none => simp [run, hA, hB]
      | some r => simp [hA, hB] at hstep
    | some p =>
      cases hB : step w t x with
      | none => simp [hA, hB] at hstep
      | some q =>
        obtain ⟨s1, e1⟩ := p
        obtain ⟨t1, e2⟩ := q
        simp only [hA, hB, Option.map_some', scanView, Option.some.injEq,
          Prod.mk.injEq] at hstep
        have hrec := ih s1 t1 hstep.1
        rw [run_cons_of_step v s s1 x xs e1 hA, run_cons_of_step w t t1 x xs e2 hB]
        cases hC : run v s1 xs <;> cases hD : run w t1 xs <;>
          simp only [hC, hD, Option.map_some', Option.map_none', Option.some.injEq,
            scanView, Prod.mk.injEq, reduceCtorEq] at hrec ⊢
        · simp only [List.filter_append, hstep.2, hrec.1, hrec.2, and_self]

theorem filter_filter_of_imp (p q : Event → Bool) (hp : ∀ e, p e = true → q e = true)
    (l : List Event) : (l.filter q).filter p = l.filter p := by
  rw [List.filter_filter]
  congr 1
  funext e
  cases hpe : p e
  · rfl
  · simp [hp e hpe]

/-- The scan loop from its entry looks the same in both variants. -/
theorem runLoop_control (v w : Variant) (s0 : State) (xs : List Nat) :
    (runLoop v s0 xs).map scanView = (runLoop w s0 xs).map scanView := by
  have h := run_control v w xs (enterJump s0).1 (enterJump s0).1 rfl
  unfold runLoop
  cases hA : run v (enterJump s0).1 xs <;> cases hB : run w (enterJump s0).1 xs <;>
    simp only [hA, hB, Option.map_some', Option.map_none', Option.some.injEq,
      scanView, Prod.mk.injEq, reduceCtorEq] at h ⊢
  · simp only [List.filter_append, h.1, h.2, and_self]

/-- Claim C15. The two variants run the same scan state machine: over every
stream of row reads both runs are defined, end at the same program point with
the same loop counter, mask, indexes and column outputs, and have the same
sequence of column writes, row reads and key results `(row_index, col_index,
symbol)`, in the same order.  The Keil variant holds the symbol of the last key
result in `g_pressed_key`, and the display variant sends the symbol of every key
result to the display. -/
theorem C15_variants_agree (j rowval : Nat) (key_char : Char) (odrA odrB odrC : Nat)
    (idrs : List Nat) :
    ∃ sk trk sl trl,
      runLoop Variant.keil (initState j rowval key_char odrA odrB odrC) idrs = some (sk, trk) ∧
      runLoop Variant.lcd (initState j rowval key_char odrA odrB odrC) idrs = some (sl, trl) ∧
      sk.control = sl.control ∧
      trk.filter Event.isScan = trl.filter Event.isScan ∧
      trk.filter Event.isDrive = trl.filter Event.isDrive ∧
      trk.filter Event.isSample = trl.filter Event.isSample ∧
      trk.filter Event.isKey = trl.filter Event.isKey ∧
      ((trk.filter Event.isKey = [] ∧ sk.g_pressed_key = Char.ofNat 0) ∨
        ∃ pre r c, trk.filter Event.isKey = pre ++ [Event.key r c sk.g_pressed_key]) ∧
      trl.filter Event.isLcdCall = (trk.filter Event.isKey).flatMap keyDisplay := by
  obtain ⟨sk, trk, hk, -, hPk⟩ :=
    runLoop_preserves Variant.keil
      (fun s acc => (acc.filter Event.isKey = [] ∧ s.g_pressed_key = Char.ofNat 0) ∨
        ∃ pre r c, acc.filter Event.isKey = pre ++ [Event.key r c s.g_pressed_key])
      j rowval key_char odrA odrB odrC idrs (Or.inl ⟨rfl, rfl⟩)
      (by intro s s1 acc evs x _ hP hs
          rcases step_cases Variant.keil s s1 x evs hs with ⟨hq, hsame⟩ | ⟨-, t, out, hf, rfl, -⟩
          · obtain ⟨-, -, -, -, h5, -, -⟩ := hsame
            have hkf : evs.filter Event.isKey = [] :=
              filter_nil_of_quiet _ (by intro e he; cases e <;> first | rfl | cases he) hq
            rw [List.filter_append, hkf, List.append_nil, h5]
            exact hP
          · obtain ⟨ch, -, rfl, hkey, -, -⟩ := finishCycle_keil_events t s1 out hf
            right
            refine ⟨acc.filter Event.isKey, s1.row_index, s1.col_index, ?_⟩
            rw [hkey]
            simp [List.filter_append, sampleEvent, Event.isKey])
  obtain ⟨sl, trl, hl, -, hPl⟩ :=
    runLoop_preserves Variant.lcd
      (fun _ acc => acc.filter Event.isLcdCall = (acc.filter Event.isKey).flatMap keyDisplay)
      j rowval key_char odrA odrB odrC idrs rfl
      (by intro s s1 acc evs x _ hP hs
          simp only [List.filter_append, List.flatMap_append, hP]
          congr 1
          rcases step_cases Variant.lcd s s1 x evs hs with ⟨hq, -⟩ | ⟨-, t, out, hf, rfl, -⟩
          · rw [filter_nil_of_quiet _ (by intro e he; cases e <;> first | rfl | cases he) hq,
              filter_nil_of_quiet _ (by intro e he; cases e <;> first | rfl | cases he) hq]
            rfl
          · obtain ⟨r, c, ch, hkf, hcalls⟩ := finishCycle_lcd_calls t s1 out hf
            have h2 : out.filter Event.isLcdCall = (out.filter
                (fun e => e.isKey || e.isLcdCall)).filter Event.isLcdCall :=
              (filter_filter_of_imp _ _ (by intro e he; simp [he]) out).symm
            rw [List.filter_cons_of_neg (by simp [sampleEvent, Event.isLcdCall]),
              List.filter_cons_of_neg (by simp [sampleEvent, Event.isKey]), hkf, h2, hcalls]
            rfl)
  have hc := runLoop_control Variant.keil Variant.lcd
    (initState j rowval key_char odrA odrB odrC) idrs
  rw [hk, hl] at hc
  simp only [Option.map_some', scanView, Option.some.injEq, Prod.mk.injEq] at hc
  obtain ⟨hctl, hscan⟩ := hc
  have hsub : ∀ p : Event → Bool, (∀ e, p e = true → e.isScan = true) →
      trk.filter p = trl.filter p := by
    intro p hp
    rw [← filter_filter_of_imp p Event.isScan hp trk, ← filter_filter_of_imp p Event.isScan hp trl,
      hscan]
  have hkeys : trk.filter Event.isKey = trl.filter Event.isKey :=
    hsub _ (by intro e he; simp [Event.isScan, he])
  refine ⟨sk, trk, sl, trl, hk, hl, hctl, hscan,
    hsub _ (by intro e he; simp [Event.isScan, he]),
    hsub _ (by intro e he; simp [Event.isScan, he]), hkeys, hPk, ?_⟩
  rw [hkeys]; exact hPl

end Keypad
